import Mathlib

/-
Verification development for the hashline edit engine
(mcp-hashline-edit-server).

The definitions below are a shallow embedding of the TypeScript sources:
  src/hashline.ts   (line hashing, anchor parsing, batch edit application)
  src/normalize.ts  (line endings, BOM, whitespace, indentation profiles)
  src/fuzzy.ts      (Levenshtein similarity, exact/fuzzy substring search)
  src/diff.ts       (replaceText, the substring-replace operation)
  src/server.ts     (the edit_file handler glue that the round-trip and
                     no-op-batch properties are about)

Modelling conventions:
  - JavaScript strings are modelled as Lean `String`/`List Char`; all index
    arithmetic is in code points (JS uses UTF-16 units, which agrees on the
    Basic Multilingual Plane; no claim depends on astral characters).
  - JavaScript numbers used as array indices / line numbers are `Nat`
    (negative intermediate values such as `start - 2` are handled by the
    same explicit guards the source has); similarity scores, which are JS
    floats, are modelled as exact rationals `ℚ`.
  - 32-bit overflow in the hash is explicit `% 2 ^ 32`.
  - `Bun.hash.xxHash32` (runtime library, not repository code) is the
    reference xxHash32 algorithm with seed 0 over the UTF-8 bytes of the
    input; it is implemented here in full.
  - thrown `Error`s become `Except` errors; `HashlineMismatchError` is a
    dedicated error constructor carrying the mismatch list and the file
    lines (its rendered report string is presentation only and not part of
    any claim).
-/

deriving instance DecidableEq for Except

namespace Hashline

/-! ## JavaScript character and string primitives -/

/-- Membership in the JavaScript regular-expression class `\s`
(ECMAScript WhiteSpace plus LineTerminator). -/
def isJsWs (c : Char) : Bool :=
  c = ' ' ∨ c = '\t' ∨ c = '\n' ∨ c = '\r' ∨
  c = Char.ofNat 0x0B ∨ c = Char.ofNat 0x0C ∨
  c = Char.ofNat 0xA0 ∨ c = Char.ofNat 0x1680 ∨
  (0x2000 ≤ c.toNat ∧ c.toNat ≤ 0x200A) ∨
  c = Char.ofNat 0x2028 ∨ c = Char.ofNat 0x2029 ∨
  c = Char.ofNat 0x202F ∨ c = Char.ofNat 0x205F ∨
  c = Char.ofNat 0x3000 ∨ c = Char.ofNat 0xFEFF

def isAsciiDigit (c : Char) : Bool := '0' ≤ c ∧ c ≤ '9'

/-- Membership in the character class `[0-9a-zA-Z]`. -/
def isAsciiAlnum (c : Char) : Bool :=
  isAsciiDigit c ∨ ('a' ≤ c ∧ c ≤ 'z') ∨ ('A' ≤ c ∧ c ≤ 'Z')

/-- ASCII lowercasing; `String.prototype.toLowerCase` restricted to ASCII,
which is exhaustive for the `[0-9a-zA-Z]` fingerprint strings it is
applied to in the source. -/
def jsToLowerChar (c : Char) : Char :=
  if 'A' ≤ c ∧ c ≤ 'Z' then Char.ofNat (c.toNat + 32) else c

def jsToLower (s : String) : String := String.mk (s.data.map jsToLowerChar)

/-- JavaScript `String.prototype.trim` (strips `\s` from both ends). -/
def jsTrimChars (l : List Char) : List Char :=
  ((l.dropWhile isJsWs).reverse.dropWhile isJsWs).reverse

def jsTrim (s : String) : String := String.mk (jsTrimChars s.data)

/-- Replacement `replace(/\s+/g, "")`: remove every whitespace character. -/
def stripAllWhitespace (s : String) : String :=
  String.mk (s.data.filter (fun c => ¬ isJsWs c))

/-- Splitting on `"\n"`: `content.split("\n")`, always at least one part. -/
def splitNlChars : List Char → List (List Char)
  | [] => [[]]
  | c :: t =>
    if c = '\n' then [] :: splitNlChars t
    else
      match splitNlChars t with
      | [] => [[c]]
      | h :: r => (c :: h) :: r

def splitNl (s : String) : List String := (splitNlChars s.data).map String.mk

/-- Joining with `"\n"`: `lines.join("\n")`. -/
def joinNl (lines : List String) : String := String.intercalate "\n" lines

/-- First index (0-based) at which `pat` occurs in `content`; `none` when
absent.  Models `String.prototype.indexOf`. -/
def indexOfSub (content pat : List Char) : Option Nat :=
  if pat.isPrefixOf content then some 0
  else
    match content with
    | [] => none
    | _ :: t => (indexOfSub t pat).map (· + 1)

/-- Index of the first occurrence of `pat` at or after position `start`:
`content.indexOf(pat, start)`. -/
def indexOfSubFrom (content pat : List Char) (start : Nat) : Option Nat :=
  (indexOfSub (content.drop start) pat).map (· + start)

/-- Splitting on a non-empty literal separator, `content.split(sep)`;
for the (unreachable in the modelled calls) empty separator we return the
whole string as one part.  The fuel argument only bounds the recursion
(the content shrinks at every step), keeping the definition
kernel-computable. -/
def splitGo : Nat → List Char → List Char → List (List Char)
  | 0, _, content => [content]
  | fuel + 1, sep, content =>
    if sep.isEmpty then [content]
    else if sep.isPrefixOf content then [] :: splitGo fuel sep (content.drop sep.length)
    else
      match content with
      | [] => [[]]
      | c :: t =>
        match splitGo fuel sep t with
        | [] => [[c]]
        | h :: r => (c :: h) :: r

def splitBySub (sep : List Char) (content : List Char) : List (List Char) :=
  splitGo (content.length + 1) sep content

/-- Number of occurrences counted as `content.split(sep).length - 1`. -/
def countOccSub (content sep : List Char) : Nat := (splitBySub sep content).length - 1

def countOcc (content sep : String) : Nat := countOccSub content.data sep.data

/-- Replacement by splitting and re-joining: `content.split(sep).join(repl)`. -/
def jsReplaceAll (content sep repl : String) : String :=
  String.intercalate repl ((splitBySub sep.data content.data).map String.mk)

/-- Decimal digit character for `0 ≤ n < 10`. -/
def decDigitChar (n : Nat) : Char := Char.ofNat (48 + n)

/-- Decimal digits of a natural number, most significant first; models the
JavaScript template interpolation of a non-negative integer.  The fuel
argument only bounds the recursion (`n / 10 < n` at every recursive
call), keeping the definition kernel-computable. -/
def natDigitsGo : Nat → Nat → List Char
  | 0, _ => []
  | fuel + 1, n =>
    if n < 10 then [decDigitChar n]
    else natDigitsGo fuel (n / 10) ++ [decDigitChar (n % 10)]

def natToDigits (n : Nat) : List Char := natDigitsGo (n + 1) n

def natStr (n : Nat) : String := String.mk (natToDigits n)

/-- Numeric value of a list of decimal digit characters (the relevant part
of `Number.parseInt(s, 10)` for all-digit strings). -/
def digitsToNat (l : List Char) : Nat :=
  l.foldl (fun acc c => 10 * acc + (c.toNat - 48)) 0

/-! ## xxHash32 (the `Bun.hash.xxHash32` runtime primitive, seed 0,
over UTF-8 bytes) -/

/-- UTF-8 encoding of one Unicode scalar value as byte values. -/
def utf8EncodeChar (c : Char) : List Nat :=
  let n := c.toNat
  if n < 0x80 then [n]
  else if n < 0x800 then [0xC0 + n / 64, 0x80 + n % 64]
  else if n < 0x10000 then [0xE0 + n / 4096, 0x80 + n / 64 % 64, 0x80 + n % 64]
  else [0xF0 + n / 262144, 0x80 + n / 4096 % 64, 0x80 + n / 64 % 64, 0x80 + n % 64]

def utf8Bytes (s : String) : List Nat := (s.data.map utf8EncodeChar).flatten

def xxPrime1 : Nat := 2654435761
def xxPrime2 : Nat := 2246822519
def xxPrime3 : Nat := 3266489917
def xxPrime4 : Nat := 668265263
def xxPrime5 : Nat := 374761393

/-- Rotate a 32-bit value left by `r` (for `x < 2 ^ 32`, `0 < r < 32`). -/
def rotl32 (x r : Nat) : Nat := (x <<< r) % 2 ^ 32 ||| x >>> (32 - r)

/-- Little-endian 32-bit read of four bytes. -/
def read32 (b0 b1 b2 b3 : Nat) : Nat := b0 + b1 * 256 + b2 * 65536 + b3 * 16777216

def xxRound (acc lane : Nat) : Nat :=
  rotl32 ((acc + lane * xxPrime2) % 2 ^ 32) 13 * xxPrime1 % 2 ^ 32

/-- Main 16-byte-stripe loop; returns the four accumulators and the
unconsumed tail (of length < 16). -/
def xxStripes (v1 v2 v3 v4 : Nat) :
    List Nat → (Nat × Nat × Nat × Nat) × List Nat
  | b0 :: b1 :: b2 :: b3 :: b4 :: b5 :: b6 :: b7 ::
    b8 :: b9 :: b10 :: b11 :: b12 :: b13 :: b14 :: b15 :: rest =>
    xxStripes (xxRound v1 (read32 b0 b1 b2 b3)) (xxRound v2 (read32 b4 b5 b6 b7))
      (xxRound v3 (read32 b8 b9 b10 b11)) (xxRound v4 (read32 b12 b13 b14 b15)) rest
  | rest => ((v1, v2, v3, v4), rest)

/-- Four-byte tail loop. -/
def xxTail4 (h : Nat) : List Nat → Nat × List Nat
  | b0 :: b1 :: b2 :: b3 :: rest =>
    xxTail4 (rotl32 ((h + read32 b0 b1 b2 b3 * xxPrime3) % 2 ^ 32) 17 * xxPrime4 % 2 ^ 32) rest
  | rest => (h, rest)

/-- Single-byte tail loop. -/
def xxTail1 (h : Nat) : List Nat → Nat
  | [] => h
  | b :: rest => xxTail1 (rotl32 ((h + b * xxPrime5) % 2 ^ 32) 11 * xxPrime1 % 2 ^ 32) rest

def xxAvalanche (h0 : Nat) : Nat :=
  let h1 := h0 ^^^ h0 >>> 15
  let h2 := h1 * xxPrime2 % 2 ^ 32
  let h3 := h2 ^^^ h2 >>> 13
  let h4 := h3 * xxPrime3 % 2 ^ 32
  h4 ^^^ h4 >>> 16

/-- The xxHash32 digest of a byte sequence. -/
def xxh32 (seed : Nat) (input : List Nat) : Nat :=
  let len := input.length
  let (h, rest) :=
    if 16 ≤ len then
      let s := xxStripes ((seed + xxPrime1 + xxPrime2) % 2 ^ 32) ((seed + xxPrime2) % 2 ^ 32)
        (seed % 2 ^ 32) ((seed + (2 ^ 32 - xxPrime1 % 2 ^ 32)) % 2 ^ 32) input
    ((rotl32 s.1.1 1 + rotl32 s.1.2.1 7 + rotl32 s.1.2.2.1 12 + rotl32 s.1.2.2.2 18) % 2 ^ 32,
        s.2)
    else ((seed + xxPrime5) % 2 ^ 32, input)
  let t := xxTail4 ((h + len) % 2 ^ 32) rest
  xxAvalanche (xxTail1 t.1 t.2)

/-- Sanity: published xxHash32 test vectors (seed 0). -/
theorem xxh32_vector_empty : xxh32 0 (utf8Bytes "") = 0x02CC5D05 := by decide

theorem xxh32_vector_abc : xxh32 0 (utf8Bytes "abc") = 0x32D153FF := by decide

theorem xxh32_vector_spam :
    xxh32 0 (utf8Bytes "Nobody inspects the spammish repetition") = 0xE2293B2F := by decide

/-! ## Line hashing (src/hashline.ts) -/

/-- Lowercase hexadecimal digit character. -/
def hexDigitChar (n : Nat) : Char :=
  if n < 10 then Char.ofNat (48 + n) else Char.ofNat (87 + n)

/-- Lookup into `DICT`: `i.toString(16).padStart(2, "0")` for `i < 256`. -/
def toHex2 (n : Nat) : String := String.mk [hexDigitChar (n / 16 % 16), hexDigitChar (n % 16)]

def HASH_MOD : Nat := 256

/-- The `if (line.endsWith("\r")) line = line.slice(0, -1)` step. -/
def crStripped (line : String) : String :=
  if line.data.getLast? = some '\r' then String.mk line.data.dropLast else line

/-- Models `computeLineHash(idx, line)`: strip a trailing `"\r"`, remove
every whitespace character, hash with xxHash32 (seed 0) and reduce
modulo 256, rendered as two lowercase hex digits.  The index parameter
is unused in the source as well. -/
def computeLineHash (_idx : Nat) (line : String) : String :=
  toHex2 (xxh32 0 (utf8Bytes (stripAllWhitespace (crStripped line))) % HASH_MOD)

theorem computeLineHash_aaa : computeLineHash 1 "aaa" = "5f" := by decide

theorem computeLineHash_ccc : computeLineHash 1 "ccc" = "00" := by decide

/-! ## Text normalization (src/normalize.ts) -/

/-- The two possible detected line-ending styles (`"\r\n" | "\n"`). -/
inductive LineEnding where
  | crlf
  | lf
deriving DecidableEq, Repr

/-- Models `detectLineEnding`: compare the position of the first `"\r\n"`
with the position of the first `"\n"`. -/
def detectLineEnding (content : String) : LineEnding :=
  let crlfIdx := indexOfSub content.data ['\r', '\n']
  let lfIdx := indexOfSub content.data ['\n']
  match lfIdx, crlfIdx with
  | none, _ => .lf
  | some _, none => .lf
  | some lf, some crlf => if crlf < lf then .crlf else .lf

/-- First pass of `normalizeToLF`: `text.replace(/\r\n/g, "\n")` (the
left-to-right non-overlapping scan of the global regex). -/
def replaceCrlfChars : List Char → List Char
  | [] => []
  | [c] => [c]
  | c1 :: c2 :: t =>
    if c1 = '\r' ∧ c2 = '\n' then '\n' :: replaceCrlfChars t
    else c1 :: replaceCrlfChars (c2 :: t)

/-- Second pass of `normalizeToLF`: `text.replace(/\r/g, "\n")`. -/
def mapCrLf (l : List Char) : List Char := l.map (fun c => if c = '\r' then '\n' else c)

/-- Models `normalizeToLF`: collapse `"\r\n"` then lone `"\r"` to `"\n"`. -/
def normalizeToLF (text : String) : String :=
  String.mk (mapCrLf (replaceCrlfChars text.data))

/-- The `text.replace(/\n/g, "\r\n")` expansion. -/
def restoreCrlfChars (l : List Char) : List Char :=
  l.flatMap (fun c => if c = '\n' then ['\r', '\n'] else [c])

/-- Models `restoreLineEndings`: re-expand `"\n"` to `"\r\n"` when the
captured ending is CRLF, otherwise identity. -/
def restoreLineEndings (text : String) (ending : LineEnding) : String :=
  match ending with
  | .crlf => String.mk (restoreCrlfChars text.data)
  | .lf => text

structure BomResult where
  bom : String
  text : String
deriving DecidableEq, Repr

/-- Models `stripBom`. -/
def stripBom (content : String) : BomResult :=
  match content.data with
  | c :: rest =>
    if c = Char.ofNat 0xFEFF then ⟨String.mk [Char.ofNat 0xFEFF], String.mk rest⟩
    else ⟨"", content⟩
  | [] => ⟨"", content⟩

/-- Models `countLeadingWhitespace` (spaces and tabs only). -/
def countLeadingWhitespace (line : String) : Nat :=
  (line.data.takeWhile (fun c => c = ' ' ∨ c = '\t')).length

/-- Models `getLeadingWhitespace`. -/
def getLeadingWhitespace (line : String) : String :=
  String.mk (line.data.takeWhile (fun c => c = ' ' ∨ c = '\t'))

/-- Models `detectIndentChar`: the first character of the first non-empty
leading-whitespace run, defaulting to a space. -/
def detectIndentChar (text : String) : Char :=
  let rec go : List String → Char
    | [] => ' '
    | l :: rest =>
      let ws := getLeadingWhitespace l
      match ws.data with
      | c :: _ => c
      | [] => go rest
  go (splitNl text)

/-- Models `normalizeForFuzzy`: trim, canonicalize curly quotes and
dash variants, collapse space/tab runs to a single space. -/
def normalizeForFuzzy (line : String) : String :=
  let trimmed := jsTrimChars line.data
  if trimmed.length = 0 then ""
  else
    let mapped := trimmed.map (fun c =>
      let n := c.toNat
      if n = 0x201C ∨ n = 0x201D ∨ n = 0x201E ∨ n = 0x201F ∨ n = 0xAB ∨ n = 0xBB then '"'
      else if n = 0x2018 ∨ n = 0x2019 ∨ n = 0x201A ∨ n = 0x201B ∨ n = 0x60 ∨ n = 0xB4 then
        Char.ofNat 39
      else if n = 0x2010 ∨ n = 0x2011 ∨ n = 0x2012 ∨ n = 0x2013 ∨ n = 0x2014 ∨ n = 0x2212 then
        '-'
      else c)
    let rec collapse : Bool → List Char → List Char
      | _, [] => []
      | prevWs, c :: t =>
        if c = ' ' ∨ c = '\t' then
          if prevWs then collapse true t else ' ' :: collapse true t
        else c :: collapse false t
    String.mk (collapse false mapped)

/-- JavaScript `String.prototype.trimStart`. -/
def jsTrimStart (s : String) : String := String.mk (s.data.dropWhile isJsWs)

/-- Models the source's local `gcd` helper (Euclid's loop; arguments are
non-negative at every call site, so the `Math.abs` is the identity).  The
fuel argument only bounds the recursion (the second argument strictly
decreases), keeping the definition kernel-computable. -/
def jsGcdGo : Nat → Nat → Nat → Nat
  | 0, a, _ => a
  | fuel + 1, a, b => if b = 0 then a else jsGcdGo fuel b (a % b)

def jsGcd (a b : Nat) : Nat := jsGcdGo (b + 1) a b

structure IndentProfile where
  lines : List String
  indentCounts : List Nat
  min : Nat
  char : Option Char
  spaceOnly : Bool
  tabOnly : Bool
  mixed : Bool
  unit : Nat
  nonEmptyCount : Nat
deriving Repr

/-- Models `buildIndentProfile`. -/
def buildIndentProfile (text : String) : IndentProfile :=
  let lines := splitNl text
  let st := lines.foldl
    (fun (st : List Nat × Option Nat × Option Char × Bool × Bool × Bool × Nat) line =>
      let (indentCounts, minOpt, ch, spaceOnly, tabOnly, mixed, nonEmptyCount) := st
      if (jsTrim line).length = 0 then st
      else
        let indent := getLeadingWhitespace line
        let indentCounts := indentCounts ++ [indent.length]
        let minOpt := some (match minOpt with
          | none => indent.length
          | some m => Nat.min m indent.length)
        let tabOnly := tabOnly && ! indent.data.contains ' '
        let spaceOnly := spaceOnly && ! indent.data.contains '\t'
        let mixed := mixed || (indent.data.contains ' ' && indent.data.contains '\t')
        let (ch, mixed) :=
          match indent.data with
          | currentChar :: _ =>
            (match ch with
             | none => (some currentChar, mixed)
             | some c0 => (some c0, mixed || decide (c0 ≠ currentChar)))
          | [] => (ch, mixed)
        (indentCounts, minOpt, ch, spaceOnly, tabOnly, mixed, nonEmptyCount + 1))
    ([], none, none, true, true, false, 0)
  let (indentCounts, minOpt, ch, spaceOnly, tabOnly, mixed, nonEmptyCount) := st
  let minVal := minOpt.getD 0
  let unit0 : Nat :=
    if spaceOnly ∧ 0 < nonEmptyCount then
      indentCounts.foldl (fun current count =>
        if count = 0 then current
        else if current = 0 then count else jsGcd current count) 0
    else 0
  let unit := if tabOnly ∧ 0 < nonEmptyCount then 1 else unit0
  ⟨lines, indentCounts, minVal, ch, spaceOnly, tabOnly, mixed, unit, nonEmptyCount⟩

/-- Models `convertLeadingTabsToSpaces`. -/
def convertLeadingTabsToSpaces (text : String) (spacesPerTab : Nat) : String :=
  if spacesPerTab = 0 then text
  else
    joinNl ((splitNl text).map (fun line =>
      let trimmed := jsTrimStart line
      if trimmed.length = 0 then line
      else
        let leading := getLeadingWhitespace line
        if ¬ leading.data.contains '\t' ∨ leading.data.contains ' ' then line
        else String.mk (List.replicate (leading.length * spacesPerTab) ' ') ++ trimmed))

/-- Models `adjustIndentation`. -/
def adjustIndentation (oldText actualText newText : String) : String :=
  if oldText = actualText then newText
  else
    let oldLines := splitNl oldText
    let newLines := splitNl newText
    let indentationOnly :=
      oldLines.length = newLines.length ∧
      (oldLines.zip newLines).all (fun p => jsTrim p.1 = jsTrim p.2)
    if indentationOnly then newText
    else
      let oldProfile := buildIndentProfile oldText
      let actualProfile := buildIndentProfile actualText
      let newProfile := buildIndentProfile newText
      if newProfile.nonEmptyCount = 0 ∨ oldProfile.nonEmptyCount = 0 ∨
          actualProfile.nonEmptyCount = 0 then newText
      else if oldProfile.mixed ∨ actualProfile.mixed ∨ newProfile.mixed then newText
      else if h : oldProfile.char.isSome ∧ actualProfile.char.isSome ∧
          oldProfile.char ≠ actualProfile.char then
        if actualProfile.spaceOnly ∧ oldProfile.tabOnly ∧ newProfile.tabOnly ∧
            0 < actualProfile.unit then
          let consistent := (oldProfile.lines.zip actualProfile.lines).all (fun p =>
            if (jsTrim p.1).length = 0 ∨ (jsTrim p.2).length = 0 then true
            else
              let oldIndent := getLeadingWhitespace p.1
              let actualIndent := getLeadingWhitespace p.2
              if oldIndent.length = 0 then true
              else actualIndent.length = oldIndent.length * actualProfile.unit)
          if consistent then convertLeadingTabsToSpaces newText actualProfile.unit else newText
        else newText
      else
        let deltas : List Int := (oldProfile.lines.zip actualProfile.lines).filterMap (fun p =>
          if (jsTrim p.1).length = 0 ∨ (jsTrim p.2).length = 0 then none
          else some ((countLeadingWhitespace p.2 : Int) - (countLeadingWhitespace p.1 : Int)))
        match deltas with
        | [] => newText
        | delta :: rest =>
          if ¬ rest.all (fun v => v = delta) then newText
          else if delta = 0 then newText
          else if newProfile.char.isSome ∧ actualProfile.char.isSome ∧
              newProfile.char ≠ actualProfile.char then newText
          else
            let indentChar :=
              (actualProfile.char.orElse (fun _ => oldProfile.char)).getD
                (detectIndentChar actualText)
            joinNl ((splitNl newText).map (fun line =>
              if (jsTrim line).length = 0 then line
              else if 0 < delta then
                String.mk (List.replicate delta.toNat indentChar) ++ line
              else
                let toRemove := Nat.min (-delta).toNat (countLeadingWhitespace line)
                String.mk (line.data.drop toRemove)))

/-! ## Fuzzy matching (src/fuzzy.ts) -/

def DEFAULT_FUZZY_THRESHOLD : ℚ := 95 / 100
def FALLBACK_THRESHOLD : ℚ := 8 / 10

/-- Inner step of the two-row Levenshtein dynamic program: given the
remaining characters of `b`, the remaining entries of the previous row,
the diagonal predecessor and the left neighbour, produce the rest of the
current row. -/
def levNextRow (c : Char) : List Char → List Nat → Nat → Nat → List Nat
  | bj :: brest, pj :: prest, diag, left =>
    let cost := if c = bj then 0 else 1
    let v := Nat.min (Nat.min (pj + 1) (left + 1)) (diag + cost)
    v :: levNextRow c brest prest pj v
  | _, _, _, _ => []

/-- Models `levenshteinDistance` (the classic two-row edit-distance DP). -/
def levenshteinDistance (a b : String) : Nat :=
  if a = b then 0
  else
    let aLen := a.data.length
    let bLen := b.data.length
    if aLen = 0 then bLen
    else if bLen = 0 then aLen
    else
      let init := List.range (bLen + 1)
      let final := (a.data.foldl (fun (st : List Nat × Nat) c =>
        let row := st.2 :: levNextRow c b.data (st.1.drop 1) (st.1.headD 0) st.2
        (row, st.2 + 1)) (init, 1)).1
      final.getLastD 0

theorem levenshtein_kitten : levenshteinDistance "kitten" "sitting" = 3 := by decide

/-- Models `similarity`: normalized edit distance as an exact rational
(the source computes with JS floats). -/
def similarity (a b : String) : ℚ :=
  if a.length = 0 ∧ b.length = 0 then 1
  else
    let maxLen := Nat.max a.length b.length
    if maxLen = 0 then 1
    else 1 - (levenshteinDistance a b : ℚ) / (maxLen : ℚ)

/-- Models `Math.round(a / b)` for naturals with `b > 0` (JS rounds half
toward positive infinity). -/
def jsRound (a b : Nat) : Nat := (2 * a + b) / (2 * b)

/-- Models `computeRelativeIndentDepths`. -/
def computeRelativeIndentDepths (lines : List String) : List Nat :=
  let indents := lines.map countLeadingWhitespace
  let nonEmptyIndents :=
    ((lines.zip indents).filter (fun p => 0 < (jsTrim p.1).length)).map (·.2)
  let minIndent := match nonEmptyIndents with
    | [] => 0
    | x :: xs => xs.foldl Nat.min x
  let indentSteps := (nonEmptyIndents.map (fun i => i - minIndent)).filter (fun s => 0 < s)
  let indentUnit := match indentSteps with
    | [] => 1
    | x :: xs => xs.foldl Nat.min x
  (lines.zip indents).map (fun p =>
    if (jsTrim p.1).length = 0 then 0
    else if indentUnit = 0 then 0
    else jsRound (p.2 - minIndent) indentUnit)

/-- Models `normalizeLines`. -/
def normalizeLines (lines : List String) (includeDepth : Bool) : List String :=
  if includeDepth then
    (lines.zip (computeRelativeIndentDepths lines)).map (fun p =>
      let trimmed := jsTrim p.1
      let pfx := natStr p.2 ++ "|"
      if trimmed.length = 0 then pfx else pfx ++ normalizeForFuzzy trimmed)
  else
    lines.map (fun l =>
      let trimmed := jsTrim l
      if trimmed.length = 0 then "|" else "|" ++ normalizeForFuzzy trimmed)

/-- Models `computeLineOffsets`. -/
def computeLineOffsets : List String → List Nat :=
  let rec go (offset : Nat) : List String → List Nat
    | [] => []
    | l :: rest => offset :: go (offset + l.length + (if rest.isEmpty then 0 else 1)) rest
  go 0

structure FuzzyMatch where
  actualText : String
  startIndex : Nat
  startLine : Nat
  confidence : ℚ
deriving DecidableEq, Repr

structure BestFuzzyMatchResult where
  best : Option FuzzyMatch
  aboveThresholdCount : Nat
  secondBestScore : ℚ
deriving DecidableEq, Repr

/-- Models `findBestFuzzyMatchCore`.  Callers guarantee
`targetLines.length ≤ contentLines.length` (the window slide below is
empty or ill-formed outside that contract, matching the guarded source). -/
def findBestFuzzyMatchCore (contentLines targetLines : List String) (offsets : List Nat)
    (threshold : ℚ) (includeDepth : Bool) : BestFuzzyMatchResult :=
  let targetNormalized := normalizeLines targetLines includeDepth
  let res := (List.range (contentLines.length - targetLines.length + 1)).foldl
    (fun (st : Option FuzzyMatch × ℚ × ℚ × Nat) start =>
      let (best, bestScore, secondBestScore, count) := st
      let windowLines := (contentLines.drop start).take targetLines.length
      let windowNormalized := normalizeLines windowLines includeDepth
      let score := ((targetNormalized.zip windowNormalized).foldl
        (fun acc p => acc + similarity p.1 p.2) 0) / (targetLines.length : ℚ)
      let count := if threshold ≤ score then count + 1 else count
      if bestScore < score then
        (some ⟨joinNl windowLines, offsets.getD start 0, start + 1, score⟩, score, bestScore,
          count)
      else if secondBestScore < score then (best, bestScore, score, count)
      else (best, bestScore, secondBestScore, count))
    (none, -1, -1, 0)
  ⟨res.1, res.2.2.2, res.2.2.1⟩

/-- Models `findBestFuzzyMatch`, including the depth-free fallback pass. -/
def findBestFuzzyMatch (content target : String) (threshold : ℚ) : BestFuzzyMatchResult :=
  let contentLines := splitNl content
  let targetLines := splitNl target
  if targetLines.length = 0 ∨ target.length = 0 then ⟨none, 0, 0⟩
  else if contentLines.length < targetLines.length then ⟨none, 0, 0⟩
  else
    let offsets := computeLineOffsets contentLines
    let result := findBestFuzzyMatchCore contentLines targetLines offsets threshold true
    match result.best with
    | some b =>
      if b.confidence < threshold ∧ FALLBACK_THRESHOLD ≤ b.confidence then
        let noDepthResult := findBestFuzzyMatchCore contentLines targetLines offsets
          threshold false
        match noDepthResult.best with
        | some nb => if b.confidence < nb.confidence then noDepthResult else result
        | none => result
      else result
    | none => result

structure FindOptions where
  allowFuzzy : Bool
  threshold : Option ℚ
deriving DecidableEq, Repr

/-- Models `MatchOutcome` (the `match` field is called `matched` because
`match` is a Lean keyword; absent optional fields are `none`, and the
only-ever-`true` `dominantFuzzy` flag is a plain Bool). -/
structure MatchOutcome where
  matched : Option FuzzyMatch
  closest : Option FuzzyMatch
  occurrences : Option Nat
  occurrenceLines : Option (List Nat)
  occurrencePreviews : Option (List String)
  fuzzyMatches : Option Nat
  dominantFuzzy : Bool
deriving DecidableEq, Repr

def MatchOutcome.empty : MatchOutcome := ⟨none, none, none, none, none, none, false⟩

/-- The occurrence-listing loop of `findMatch`'s multi-occurrence branch
(`for i in 0..<5` with an overlapping `indexOf` scan). -/
def occLoop (content target : List Char) (contentLines : List String) :
    Nat → Nat → List Nat × List String
  | 0, _ => ([], [])
  | i + 1, searchStart =>
    match indexOfSubFrom content target searchStart with
    | none => ([], [])
    | some idx =>
      let lineNumber := ((content.take idx).count '\n') + 1
      let start := lineNumber - 1 - 5
      let stop := Nat.min contentLines.length (lineNumber + 5 + 1)
      let previewLines := (contentLines.drop start).take (stop - start)
      let preview := String.intercalate "\n" (previewLines.enum.map (fun p =>
        "  " ++ natStr (start + p.1 + 1) ++ " | " ++
          (if 80 < p.2.length then String.mk (p.2.data.take 79) ++ "…" else p.2)))
      let rest := occLoop content target contentLines i (idx + 1)
      (lineNumber :: rest.1, preview :: rest.2)

/-- Models `findMatch`: exact search first (with the ambiguous-occurrence
listing), then the fuzzy search with unique-or-dominant auto-acceptance. -/
def findMatch (content target : String) (options : FindOptions) : MatchOutcome :=
  if target.length = 0 then .empty
  else
    match indexOfSub content.data target.data with
    | some exactIndex =>
      let occurrences := countOcc content target
      if 1 < occurrences then
        let contentLines := splitNl content
        let lp := occLoop content.data target.data contentLines 5 0
        { MatchOutcome.empty with
            occurrences := some occurrences
            occurrenceLines := some lp.1
            occurrencePreviews := some lp.2 }
      else
        let startLine := ((content.data.take exactIndex).count '\n') + 1
        { MatchOutcome.empty with matched := some ⟨target, exactIndex, startLine, 1⟩ }
    | none =>
      let threshold := options.threshold.getD DEFAULT_FUZZY_THRESHOLD
      let r := findBestFuzzyMatch content target threshold
      match r.best with
      | none => .empty
      | some best =>
        if options.allowFuzzy ∧ threshold ≤ best.confidence then
          if r.aboveThresholdCount = 1 then
            { MatchOutcome.empty with matched := some best, closest := some best }
          else if 1 < r.aboveThresholdCount ∧ (97 : ℚ) / 100 ≤ best.confidence ∧
              (8 : ℚ) / 100 ≤ best.confidence - r.secondBestScore then
            { MatchOutcome.empty with
                matched := some best
                closest := some best
                fuzzyMatches := some r.aboveThresholdCount
                dominantFuzzy := true }
          else
            { MatchOutcome.empty with
                closest := some best
                fuzzyMatches := some r.aboveThresholdCount }
        else
          { MatchOutcome.empty with
              closest := some best
              fuzzyMatches := some r.aboveThresholdCount }

/-! ## Substring replace (src/diff.ts, `replaceText`) -/

structure ReplaceOptions where
  fuzzy : Bool
  all : Bool
  threshold : Option ℚ
deriving DecidableEq, Repr

structure ReplaceResult where
  content : String
  count : Nat
deriving DecidableEq, Repr

/-- Character-position substring splice,
`content.substring(0, i) + mid + content.substring(j)`. -/
def spliceStr (content : String) (i j : Nat) (mid : String) : String :=
  String.mk (content.data.take i) ++ mid ++ String.mk (content.data.drop j)

/-- The `while (true)` body of `replaceText`'s replace-all fuzzy loop.
The source loop has no a-priori bound; the fuel argument caps it (every
property proved below only exercises the zero-iteration exit, which is
reached for any positive fuel). -/
def replaceAllFuzzyLoop (fuzzy : Bool) (threshold : ℚ) (normalizedOldText
    normalizedNewText : String) : Nat → String → Nat → String × Nat
  | 0, content, count => (content, count)
  | fuel + 1, content, count =>
    let mo := findMatch content normalizedOldText ⟨fuzzy, some threshold⟩
    let shouldUseClosest : Bool := fuzzy &&
      (match mo.closest with
       | some c => decide (threshold ≤ c.confidence)
       | none => false) &&
      (decide (mo.fuzzyMatches = none) || decide (mo.fuzzyMatches.getD 0 ≤ 1))
    let m := match mo.matched with
      | some m => some m
      | none => if shouldUseClosest then mo.closest else none
    match m with
    | none => (content, count)
    | some m =>
      let adjustedNewText := adjustIndentation normalizedOldText m.actualText
        normalizedNewText
      if adjustedNewText = m.actualText then (content, count)
      else
        replaceAllFuzzyLoop fuzzy threshold normalizedOldText normalizedNewText fuel
          (spliceStr content m.startIndex (m.startIndex + m.actualText.length)
            adjustedNewText)
          (count + 1)

/-- Models `replaceText`. -/
def replaceText (content oldText newText : String) (options : ReplaceOptions) :
    Except String ReplaceResult :=
  if oldText.length = 0 then .error "oldText must not be empty."
  else
    let threshold := options.threshold.getD DEFAULT_FUZZY_THRESHOLD
    let normalizedContent := normalizeToLF content
    let normalizedOldText := normalizeToLF oldText
    let normalizedNewText := normalizeToLF newText
    if options.all then
      let exactCount := countOcc normalizedContent normalizedOldText
      if 0 < exactCount then
        .ok ⟨jsReplaceAll normalizedContent normalizedOldText normalizedNewText, exactCount⟩
      else
        let r := replaceAllFuzzyLoop options.fuzzy threshold normalizedOldText
          normalizedNewText (normalizedContent.length + 1) normalizedContent 0
        .ok ⟨r.1, r.2⟩
    else
      let mo := findMatch normalizedContent normalizedOldText ⟨options.fuzzy, some threshold⟩
      let tail : Except String ReplaceResult :=
        match mo.matched with
        | none => .ok ⟨normalizedContent, 0⟩
        | some m =>
          let adjustedNewText := adjustIndentation normalizedOldText m.actualText
            normalizedNewText
          .ok ⟨spliceStr normalizedContent m.startIndex
            (m.startIndex + m.actualText.length) adjustedNewText, 1⟩
      match mo.occurrences with
      | some occ =>
        if 1 < occ then
          let previews := String.intercalate "\n\n" (mo.occurrencePreviews.getD [])
          let moreMsg := if 5 < occ then " (showing first 5 of " ++ natStr occ ++ ")" else ""
          .error ("Found " ++ natStr occ ++ " occurrences" ++ moreMsg ++ ":\n\n" ++
            previews ++ "\n\nAdd more context lines to disambiguate.")
        else tail
      | none => tail

/-! ## Hashline edit helpers (src/hashline.ts) -/

/-- Models `equalsIgnoringWhitespace` (renamed `vibeCheck` in the source):
literal equality or equality after removing all whitespace. -/
def vibeCheck (a b : String) : Bool :=
  a = b || stripAllWhitespace a = stripAllWhitespace b

/-- Models `isSubstantive`: the trimmed line is non-empty. -/
def isSubstantive (line : String) : Bool := 0 < (jsTrim line).length

/-- Alternatives of the continuation-token alternation, in source order. -/
def contTokens : List (List Char) :=
  [['&', '&'], ['|', '|'], ['?', '?'], ['?'], [':'], ['='], [','], ['+'], ['-'], ['*'],
   ['/'], ['.'], ['(']]

/-- Whether the regex `(?:&&|\|\||\?\?|\?|:|=|,|\+|-|\*|\/|\.|\()\s*$` can
match starting exactly here: some alternative is a prefix and only
whitespace follows it to the end of the string. -/
def contMatchHere (rest : List Char) : Bool :=
  contTokens.any (fun tok => tok.isPrefixOf rest && (rest.drop tok.length).all isJsWs)

/-- Models `stripTrailingContinuationTokens`: remove the leftmost match of
the anchored-to-end continuation-token pattern (the match always extends
to the end of the string). -/
def stripTrailingContinuationTokens (s : String) : String :=
  let rec go : List Char → List Char
    | [] => []
    | c :: t => if contMatchHere (c :: t) then [] else c :: go t
  String.mk (go s.data)

/-- Models `stripMergeOperatorChars`: `replace(/[|&?]/g, "")`. -/
def stripMergeOperatorChars (s : String) : String :=
  String.mk (s.data.filter (fun c => ¬ (c = '|' ∨ c = '&' ∨ c = '?')))

/-- Models the hashline module's `leadingWhitespace` (regex `^\s*`, the
full JavaScript whitespace class, unlike the normalizer's space/tab-only
`countLeadingWhitespace`). -/
def leadingWhitespace (s : String) : String := String.mk (s.data.takeWhile isJsWs)

/-- Models `restoreLeadingIndent`. -/
def restoreLeadingIndent (templateLine line : String) : String :=
  if line.length = 0 then line
  else
    let templateIndent := leadingWhitespace templateLine
    if templateIndent.length = 0 then line
    else
      let indent := leadingWhitespace line
      if 0 < indent.length then line
      else templateIndent ++ line

/-- Character class of `CONFUSABLE_HYPHENS_RE`. -/
def isConfusableHyphen (c : Char) : Bool :=
  (0x2010 ≤ c.toNat ∧ c.toNat ≤ 0x2014) ∨ c.toNat = 0x2212 ∨ c.toNat = 0xFE63 ∨
    c.toNat = 0xFF0D

def normalizeConfusableHyphens (s : String) : String :=
  String.mk (s.data.map (fun c => if isConfusableHyphen c then '-' else c))

def containsConfusableHyphen (s : String) : Bool := s.data.any isConfusableHyphen

def normalizeConfusableHyphensInLines (lines : List String) : List String :=
  lines.map normalizeConfusableHyphens

/-- Models `restoreIndentForPairedReplacement` (the source's `changed`
bookkeeping only decides whether to return the freshly built array or the
input array, which are equal in that case). -/
def restoreIndentForPairedReplacement (oldLines newLines : List String) : List String :=
  if oldLines.length ≠ newLines.length then newLines
  else (oldLines.zip newLines).map (fun p => restoreLeadingIndent p.1 p.2)

/-- Generic model of `Array.prototype.splice(start, deleteCount, ...items)`. -/
def listSplice {α : Type} (l : List α) (start del : Nat) (items : List α) : List α :=
  l.take start ++ items ++ l.drop (start + del)

structure WrapCandidate where
  start : Nat
  len : Nat
  replacement : String
  canon : String
deriving DecidableEq, Repr

/-- Association-list lookup (models `Map.prototype.get`). -/
def assocLookup {α : Type} (m : List (String × α)) (k : String) : Option α :=
  match m.find? (fun p => p.1 = k) with
  | some p => some p.2
  | none => none

/-- Models `restoreOldWrappedLines`. -/
def restoreOldWrappedLines (oldLines newLines : List String) : List String :=
  if oldLines.length = 0 ∨ newLines.length < 2 then newLines
  else
    let canonToOld : List (String × (String × Nat)) := oldLines.foldl
      (fun m line =>
        let canon := stripAllWhitespace line
        match assocLookup m canon with
        | some (stored, count) =>
          m.map (fun p => if p.1 = canon then (canon, (stored, count + 1)) else p)
        | none => m ++ [(canon, (line, 1))])
      []
    let candidates : List WrapCandidate :=
      (List.range newLines.length).flatMap (fun start =>
        ((List.range 9).map (· + 2)).filterMap (fun len =>
          if start + len ≤ newLines.length then
            let canonSpan := stripAllWhitespace
              (String.join ((newLines.drop start).take len))
            match assocLookup canonToOld canonSpan with
            | some (old, count) =>
              if count = 1 ∧ 6 ≤ canonSpan.length then
                some ⟨start, len, old, canonSpan⟩
              else none
            | none => none
          else none))
    if candidates.isEmpty then newLines
    else
      let canonCount := fun (c : String) => (candidates.filter (fun x => x.canon = c)).length
      let uniqueCandidates := candidates.filter (fun c => canonCount c.canon = 1)
      if uniqueCandidates.isEmpty then newLines
      else
        let sorted := List.insertionSort
          (fun (a b : WrapCandidate) => b.start ≤ a.start) uniqueCandidates
        sorted.foldl (fun out c => listSplice out c.start c.len [c.replacement]) newLines

/-- Models `stripInsertAnchorEchoAfter`; a single-line replacement is
never stripped, and blank lines are never treated as an echo. -/
def stripInsertAnchorEchoAfter (anchorLine : String) (dstLines : List String) : List String :=
  if dstLines.length ≤ 1 then dstLines
  else if ¬ isSubstantive anchorLine ∨ ¬ isSubstantive (dstLines.headD "") then dstLines
  else if vibeCheck (dstLines.headD "") anchorLine then dstLines.drop 1
  else dstLines

/-- The leading-echo condition of `stripRangeBoundaryEcho`
(`beforeIdx >= 0 && isSubstantive(out[0]) && isSubstantive(fileLines[beforeIdx])
&& vibeCheck(out[0], fileLines[beforeIdx])`). -/
def srbeLeadCond (fileLines : List String) (startLine : Nat) (dstLines : List String) :
    Prop :=
  2 ≤ startLine ∧ isSubstantive (dstLines.headD "") = true ∧
    isSubstantive (fileLines.getD (startLine - 2) "") = true ∧
    vibeCheck (dstLines.headD "") (fileLines.getD (startLine - 2) "") = true

instance srbeLeadCond.decidable (fileLines : List String) (startLine : Nat)
    (dstLines : List String) : Decidable (srbeLeadCond fileLines startLine dstLines) :=
  inferInstanceAs (Decidable (_ ∧ _ ∧ _ ∧ _))

/-- The trailing-echo condition of `stripRangeBoundaryEcho`
(`afterIdx < fileLines.length && out.length > 0 && isSubstantive(out[out.length-1])
&& isSubstantive(fileLines[afterIdx]) && vibeCheck(...)`). -/
def srbeTrailCond (fileLines : List String) (endLine : Nat) (out : List String) : Prop :=
  endLine < fileLines.length ∧ 0 < out.length ∧ isSubstantive (out.getLastD "") = true ∧
    isSubstantive (fileLines.getD endLine "") = true ∧
    vibeCheck (out.getLastD "") (fileLines.getD endLine "") = true

instance srbeTrailCond.decidable (fileLines : List String) (endLine : Nat)
    (out : List String) : Decidable (srbeTrailCond fileLines endLine out) :=
  inferInstanceAs (Decidable (_ ∧ _ ∧ _ ∧ _ ∧ _))

/-- Models `stripRangeBoundaryEcho`.  Callers guarantee
`1 ≤ startLine ≤ endLine ≤ fileLines.length`; the `getD ""` defaults are
only reachable outside that contract. -/
def stripRangeBoundaryEcho (fileLines : List String) (startLine endLine : Nat)
    (dstLines : List String) : List String :=
  let count := endLine - startLine + 1
  if dstLines.length ≤ 1 ∨ dstLines.length ≤ count then dstLines
  else
    let out :=
      if srbeLeadCond fileLines startLine dstLines then dstLines.drop 1
      else dstLines
    if srbeTrailCond fileLines endLine out then out.dropLast
    else out

/-- Match length of `HASHLINE_PREFIX_RE` = `^\d+:[0-9a-zA-Z]{1,16}\|` at the
start of the line, when it matches. -/
def matchHashlinePrefixLen (l : List Char) : Option Nat :=
  let ds := l.takeWhile isAsciiDigit
  if ds.isEmpty then none
  else
    match l.drop ds.length with
    | ':' :: r2 =>
      let as := r2.takeWhile isAsciiAlnum
      if 1 ≤ as.length ∧ as.length ≤ 16 ∧ (r2.drop as.length).head? = some '|' then
        some (ds.length + 1 + as.length + 1)
      else none
    | _ => none

def testHashlinePrefixRe (s : String) : Bool := (matchHashlinePrefixLen s.data).isSome

def stripHashlinePrefixRe (s : String) : String :=
  match matchHashlinePrefixLen s.data with
  | some n => String.mk (s.data.drop n)
  | none => s

/-- Match of `DIFF_PLUS_RE` = `^\+(?!\+)`. -/
def testDiffPlusRe (s : String) : Bool :=
  match s.data with
  | '+' :: rest => rest.head? ≠ some '+'
  | _ => false

def stripDiffPlusRe (s : String) : String :=
  if testDiffPlusRe s then String.mk (s.data.drop 1) else s

/-- Models `stripNewLinePrefixes`: drop an accidental hashline or
diff-plus prefix when at least half of the non-empty replacement lines
carry it (`count >= nonEmpty * 0.5` is exact as `2 * count ≥ nonEmpty`). -/
def stripNewLinePrefixes (lines : List String) : List String :=
  let nonEmptyLines := lines.filter (fun l => l.length ≠ 0)
  let nonEmpty := nonEmptyLines.length
  let hashPrefixCount := (nonEmptyLines.filter testHashlinePrefixRe).length
  let diffPlusCount := (nonEmptyLines.filter testDiffPlusRe).length
  if nonEmpty = 0 then lines
  else
    let stripHash := 0 < hashPrefixCount ∧ nonEmpty ≤ 2 * hashPrefixCount
    let stripPlus := ¬ stripHash ∧ 0 < diffPlusCount ∧ nonEmpty ≤ 2 * diffPlusCount
    if ¬ stripHash ∧ ¬ stripPlus then lines
    else lines.map (fun l =>
      if stripHash then stripHashlinePrefixRe l
      else if stripPlus then stripDiffPlusRe l
      else l)

/-- Models `splitDstLines`: the empty string becomes zero lines. -/
def splitDstLines (dst : String) : List String :=
  if dst = "" then [] else splitNl dst

/-! ## Anchor parsing (src/hashline.ts, `parseLineRef`) -/

structure LineRef where
  line : Nat
  hash : String
deriving DecidableEq, Repr

/-- Replacement `replace(/\|.*$/, "")`: cut from the leftmost `|` whose
tail contains no newline (`.` does not match `\n` and `$` is end-of-string
only). -/
def stripAfterPipeNoNl : List Char → List Char
  | [] => []
  | '|' :: t => if t.contains '\n' then '|' :: stripAfterPipeNoNl t else []
  | c :: t => c :: stripAfterPipeNoNl t

/-- Replacement `replace(/ {2}.*$/, "")`: cut from the leftmost double
space whose tail contains no newline. -/
def stripAfterDoubleSpaceNoNl : List Char → List Char
  | ' ' :: ' ' :: t =>
    if t.contains '\n' then ' ' :: stripAfterDoubleSpaceNoNl (' ' :: t) else []
  | c :: t => c :: stripAfterDoubleSpaceNoNl t
  | [] => []

/-- Replacement `replace(/\s*:\s*/, ":")` (first match only): the leftmost
match wraps the first colon together with the whitespace runs immediately
around it. -/
def normalizeColonWs (l : List Char) : List Char :=
  let pre := l.takeWhile (fun c => c ≠ ':')
  match l.drop pre.length with
  | ':' :: suf => ((pre.reverse.dropWhile isJsWs).reverse) ++ ':' :: suf.dropWhile isJsWs
  | _ => l

/-- Models `parseLineRef`: strip echoed content after a pipe or double
space, trim, normalise spacing around the colon, then match the strict
`^(\d+):([0-9a-zA-Z]{1,16})$` shape or, failing that, the lenient
fixed-length-prefix shape `^(\d+):([0-9a-zA-Z]{2})`. -/
def parseLineRef (ref : String) : Except String LineRef :=
  let cleaned := jsTrimChars (stripAfterDoubleSpaceNoNl (stripAfterPipeNoNl ref.data))
  let normalized := normalizeColonWs cleaned
  let ds := normalized.takeWhile isAsciiDigit
  let parsed : Option LineRef :=
    if ds.isEmpty then none
    else
      match normalized.drop ds.length with
      | ':' :: hs =>
        let as := hs.takeWhile isAsciiAlnum
        if as.length = hs.length ∧ 1 ≤ hs.length ∧ hs.length ≤ 16 then
          some ⟨digitsToNat ds, String.mk hs⟩
        else if 2 ≤ as.length then some ⟨digitsToNat ds, String.mk (hs.take 2)⟩
        else none
      | _ => none
  match parsed with
  | none =>
    .error ("Invalid line reference \"" ++ ref ++
      "\". Expected format \"LINE:HASH\" (e.g. \"5:aa\").")
  | some r =>
    if r.line < 1 then
      .error ("Line number must be >= 1, got " ++ natStr r.line ++ " in \"" ++ ref ++ "\".")
    else .ok r

theorem parseLineRef_simple : parseLineRef "5:ab" = .ok ⟨5, "ab"⟩ := by decide

theorem parseLineRef_echo : parseLineRef "12:Ef|some echoed text" = .ok ⟨12, "Ef"⟩ := by
  decide

/-! ## Edit-batch types and parsing (src/hashline.ts, src/types.ts) -/

/-- The anchor-based edit variants.  `replace` edits are filtered out by the
edit_file handler before `applyHashlineEdits` is called (and would only
throw there), so they are not part of this type. -/
inductive HashlineEdit where
  | set_line (anchor new_text : String)
  | replace_lines (start_anchor end_anchor new_text : String)
  | insert_after (anchor text : String)
deriving DecidableEq, Repr

structure HashMismatch where
  line : Nat
  expected : String
  actual : String
deriving DecidableEq, Repr

inductive ParsedSpec where
  | single (ref : LineRef)
  | range (startRef endRef : LineRef)
  | insertAfter (after : LineRef)
deriving DecidableEq, Repr

/-- Models `parseHashlineEdit`: an empty (falsy) `end_anchor`, or equal
start/end lines, degrade `replace_lines` to a single-line edit. -/
def parseHashlineEdit (edit : HashlineEdit) : Except String (ParsedSpec × String) :=
  match edit with
  | .set_line anchor new_text => do
    let ref ← parseLineRef anchor
    .ok (.single ref, new_text)
  | .replace_lines start_anchor end_anchor new_text => do
    let start ← parseLineRef start_anchor
    if end_anchor = "" then .ok (.single start, new_text)
    else do
      let e ← parseLineRef end_anchor
      .ok (if start.line = e.line then .single start else .range start e, new_text)
  | .insert_after anchor text => do
    let ref ← parseLineRef anchor
    .ok (.insertAfter ref, text)

structure ParsedEdit where
  spec : ParsedSpec
  dstLines : List String
deriving DecidableEq, Repr

/-- Parse every edit, pre-processing each replacement text exactly as the
source does when building `parsed`. -/
def parseAllEdits (edits : List HashlineEdit) : Except String (List ParsedEdit) :=
  edits.mapM (fun e => do
    let pe ← parseHashlineEdit e
    pure ⟨pe.1, stripNewLinePrefixes (splitDstLines pe.2)⟩)

/-! ## Validation and relocation (src/hashline.ts) -/

/-- Models `collectExplicitlyTouchedLines` (set membership is all that is
consumed, so a list with possible duplicates is an adequate model). -/
def touchedLines (parsed : List ParsedEdit) : List Nat :=
  parsed.flatMap (fun p =>
    match p.spec with
    | .single ref => [ref.line]
    | .range s e => List.range' s.line (e.line + 1 - s.line)
    | .insertAfter a => [a.line])

/-- Models the `uniqueLineByHash` construction: a one-pass index mapping a
fingerprint to its owning line when that fingerprint occurs on exactly one
line; fingerprints seen on two or more lines are evicted. -/
def buildUniqGo (lineNo : Nat) (ls : List String) (map : List (String × Nat))
    (dups : List String) : List (String × Nat) :=
  match ls with
  | [] => map
  | l :: rest =>
    let hash := computeLineHash lineNo l
    if dups.contains hash then buildUniqGo (lineNo + 1) rest map dups
    else
      match assocLookup map hash with
      | some _ =>
        buildUniqGo (lineNo + 1) rest (map.filter (fun p => p.1 ≠ hash)) (hash :: dups)
      | none => buildUniqGo (lineNo + 1) rest (map ++ [(hash, lineNo)]) dups

def buildUniqueLineByHash (fileLines : List String) : List (String × Nat) :=
  buildUniqGo 1 fileLines [] []

/-- Models `buildMismatch`. -/
def buildMismatch (fileLines : List String) (ref : LineRef) (line : Nat) : HashMismatch :=
  ⟨line, ref.hash, computeLineHash line (fileLines.getD (line - 1) "")⟩

/-- Models `validateOrRelocateRef`: returns the (possibly relocated)
reference, whether it was relocated, and the recorded mismatch when the
fingerprint is absent or ambiguous; throws on an out-of-range line. -/
def validateOrRelocateRef (fileLines : List String) (uniq : List (String × Nat))
    (ref : LineRef) : Except String (LineRef × Bool × Option HashMismatch) :=
  if ref.line < 1 ∨ fileLines.length < ref.line then
    .error ("Line " ++ natStr ref.line ++ " does not exist (file has " ++
      natStr fileLines.length ++ " lines)")
  else
    let expected := jsToLower ref.hash
    let actualHash := computeLineHash ref.line (fileLines.getD (ref.line - 1) "")
    if actualHash = expected then .ok (ref, false, none)
    else
      match assocLookup uniq expected with
      | none => .ok (ref, false, some ⟨ref.line, ref.hash, actualHash⟩)
      | some relocated => .ok ({ ref with line := relocated }, true, none)

/-- Validation of one parsed edit: the per-edit body of the source's
pre-validation loop, returning the updated edit and the mismatches it
records (in push order). -/
def validateOne (fileLines : List String) (uniq : List (String × Nat))
    (p : ParsedEdit) : Except String (ParsedEdit × List HashMismatch) :=
  match p.spec with
  | .single ref => do
    let (ref', _, m) ← validateOrRelocateRef fileLines uniq ref
    .ok (⟨.single ref', p.dstLines⟩, m.toList)
  | .insertAfter ref =>
    if p.dstLines.length = 0 then .error "Insert-after edit requires non-empty dst"
    else do
      let (ref', _, m) ← validateOrRelocateRef fileLines uniq ref
      .ok (⟨.insertAfter ref', p.dstLines⟩, m.toList)
  | .range s e =>
    if e.line < s.line then
      .error ("Range start line " ++ natStr s.line ++ " must be <= end line " ++
        natStr e.line)
    else do
      let originalStart := s.line
      let originalEnd := e.line
      let originalCount : Int := (originalEnd : Int) - (originalStart : Int) + 1
      let (s', sRel, sM) ← validateOrRelocateRef fileLines uniq s
      let (e', eRel, eM) ← validateOrRelocateRef fileLines uniq e
      match sM, eM with
      | none, none =>
        let relocatedCount : Int := (e'.line : Int) - (s'.line : Int) + 1
        let changedByRelocation := sRel || eRel
        let invalidRange := e'.line < s'.line
        let scopeChanged := relocatedCount ≠ originalCount
        if changedByRelocation ∧ (invalidRange ∨ scopeChanged) then
          .ok (⟨.range ⟨originalStart, s.hash⟩ ⟨originalEnd, e.hash⟩, p.dstLines⟩,
            [buildMismatch fileLines s' originalStart, buildMismatch fileLines e' originalEnd])
        else .ok (⟨.range s' e', p.dstLines⟩, [])
      | _, _ => .ok (⟨.range s' e', p.dstLines⟩, sM.toList ++ eM.toList)

/-- The whole pre-validation loop.  A generic throw aborts the batch at
that point (discarding any mismatches recorded so far), exactly as the
propagating exception does in the source. -/
def validateAll (fileLines : List String) (uniq : List (String × Nat)) :
    List ParsedEdit → Except String (List ParsedEdit × List HashMismatch)
  | [] => .ok ([], [])
  | p :: rest => do
    let (p', ms) ← validateOne fileLines uniq p
    let (ps, msRest) ← validateAll fileLines uniq rest
    .ok (p' :: ps, ms ++ msRest)

/-! ## Deduplication, ordering, application (src/hashline.ts) -/

def editLineKey (spec : ParsedSpec) : String :=
  match spec with
  | .single ref => "s:" ++ natStr ref.line
  | .range s e => "r:" ++ natStr s.line ++ ":" ++ natStr e.line
  | .insertAfter a => "i:" ++ natStr a.line

def editDstKey (p : ParsedEdit) : String := editLineKey p.spec ++ "|" ++ joinNl p.dstLines

/-- Models the dedup pass: drop every edit whose key was already seen. -/
def dedupGo (seen : List String) : List ParsedEdit → List ParsedEdit
  | [] => []
  | p :: rest =>
    let k := editDstKey p
    if seen.contains k then dedupGo seen rest
    else p :: dedupGo (k :: seen) rest

def dedupEdits (parsed : List ParsedEdit) : List ParsedEdit := dedupGo [] parsed

structure AnnotatedEdit where
  edit : ParsedEdit
  idx : Nat
  sortLine : Nat
  precedence : Nat
deriving DecidableEq, Repr

def annotateEdits (parsed : List ParsedEdit) : List AnnotatedEdit :=
  parsed.enum.map (fun pe =>
    match pe.2.spec with
    | .single ref => ⟨pe.2, pe.1, ref.line, 0⟩
    | .range _ e => ⟨pe.2, pe.1, e.line, 0⟩
    | .insertAfter a => ⟨pe.2, pe.1, a.line, 1⟩)

/-- The bottom-up ordering of `annotated.sort(...)`: line number
descending, insert-after operations after same-line replacements, then
original submission order.  The comparator is a total order (indices are
distinct), so any correct sort yields the same list as `Array.sort`. -/
def editLE (a b : AnnotatedEdit) : Prop :=
  b.sortLine < a.sortLine ∨ (b.sortLine = a.sortLine ∧
    (a.precedence < b.precedence ∨ (a.precedence = b.precedence ∧ a.idx ≤ b.idx)))

instance editLE.decidable : DecidableRel editLE := fun a b =>
  inferInstanceAs (Decidable (b.sortLine < a.sortLine ∨ (b.sortLine = a.sortLine ∧
    (a.precedence < b.precedence ∨ (a.precedence = b.precedence ∧ a.idx ≤ b.idx)))))

def sortEdits (parsed : List ParsedEdit) : List AnnotatedEdit :=
  List.insertionSort editLE (annotateEdits parsed)

structure NoopEdit where
  editIndex : Nat
  loc : String
  currentContent : String
deriving DecidableEq, Repr

structure ApplyState where
  fileLines : List String
  firstChangedLine : Option Nat
  noopEdits : List NoopEdit
deriving DecidableEq, Repr

def trackFirstChanged (cur : Option Nat) (line : Nat) : Option Nat :=
  match cur with
  | none => some line
  | some l => if line < l then some line else some l

/-- Models `maybeExpandSingleLineMerge`: detect a one-line replacement
that merges the anchored line with a truncated-continuation neighbour,
unless that neighbour is itself explicitly anchored by the batch. -/
def maybeExpandSingleLineMerge (fileLines : List String) (touched : List Nat)
    (line : Nat) (dst : List String) : Option (Nat × Nat × List String) :=
  if dst.length ≠ 1 then none
  else if line < 1 ∨ fileLines.length < line then none
  else
    let newLine := dst.headD ""
    let newCanon := stripAllWhitespace newLine
    let newCanonForMergeOps := stripMergeOperatorChars newCanon
    if newCanon.length = 0 then none
    else
      let orig := fileLines.getD (line - 1) ""
      let origCanon := stripAllWhitespace orig
      let origCanonForMatch := stripTrailingContinuationTokens origCanon
      let origCanonForMergeOps := stripMergeOperatorChars origCanon
      let origLooksLikeContinuation := origCanonForMatch.length < origCanon.length
      if origCanon.length = 0 then none
      else
        let nextBranch : Option (Nat × Nat × List String) :=
          if origLooksLikeContinuation ∧ line < fileLines.length ∧
              ¬ touched.contains (line + 1) then
            let next := fileLines.getD line ""
            let nextCanon := stripAllWhitespace next
            let a := indexOfSub newCanon.data origCanonForMatch.data
            let b := indexOfSub newCanon.data nextCanon.data
            match a, b with
            | some av, some bv =>
              if av < bv ∧ newCanon.length ≤ origCanon.length + nextCanon.length + 32 then
                some (line, 2, [newLine])
              else none
            | _, _ => none
          else none
        match nextBranch with
        | some r => some r
        | none =>
          if 2 ≤ line ∧ ¬ touched.contains (line - 1) then
            let prev := fileLines.getD (line - 2) ""
            let prevCanon := stripAllWhitespace prev
            let prevCanonForMatch := stripTrailingContinuationTokens prevCanon
            if ¬ prevCanonForMatch.length < prevCanon.length then none
            else
              let a := indexOfSub newCanonForMergeOps.data
                (stripMergeOperatorChars prevCanonForMatch).data
              let b := indexOfSub newCanonForMergeOps.data origCanonForMergeOps.data
              match a, b with
              | some av, some bv =>
                if av < bv ∧ newCanon.length ≤ prevCanon.length + origCanon.length + 32 then
                  some (line - 1, 2, [newLine])
                else none
              | _, _ => none
          else none

/-- Resolution pipeline shared by the single-line and range apply paths:
boundary-echo stripping, wrapped-line restoration, paired indent
restoration, then the confusable-hyphen fallback. -/
def resolveReplacement (originalFileLines : List String) (startLine endLine : Nat)
    (dst : List String) : List String :=
  let count := endLine + 1 - startLine
  let origLines := (originalFileLines.drop (startLine - 1)).take count
  let stripped := stripRangeBoundaryEcho originalFileLines startLine endLine dst
  let stripped2 := restoreOldWrappedLines origLines stripped
  let newLines := restoreIndentForPairedReplacement origLines stripped2
  if joinNl origLines = joinNl newLines ∧ origLines.any containsConfusableHyphen then
    normalizeConfusableHyphensInLines newLines
  else newLines

/-- Resolution pipeline of the merge-expansion path. -/
def resolveMerge (originalFileLines : List String) (startLine deleteCount : Nat)
    (newLines0 : List String) : List String :=
  let origLines := (originalFileLines.drop (startLine - 1)).take deleteCount
  let nextLines := restoreIndentForPairedReplacement [origLines.headD ""] newLines0
  if joinNl origLines = joinNl nextLines ∧ origLines.any containsConfusableHyphen then
    normalizeConfusableHyphensInLines nextLines
  else nextLines

/-- One step of the bottom-up apply loop. -/
def applyOne (originalFileLines : List String) (touched : List Nat)
    (st : ApplyState) (a : AnnotatedEdit) : ApplyState :=
  match a.edit.spec with
  | .single ref =>
    match maybeExpandSingleLineMerge st.fileLines touched ref.line a.edit.dstLines with
    | some (startLine, deleteCount, newLines0) =>
      let origLines := (originalFileLines.drop (startLine - 1)).take deleteCount
      let nextLines := resolveMerge originalFileLines startLine deleteCount newLines0
      if joinNl origLines = joinNl nextLines then
        { st with noopEdits := st.noopEdits ++
            [⟨a.idx, natStr ref.line ++ ":" ++ ref.hash, joinNl origLines⟩] }
      else
        { fileLines := listSplice st.fileLines (startLine - 1) deleteCount nextLines
          firstChangedLine := trackFirstChanged st.firstChangedLine startLine
          noopEdits := st.noopEdits }
    | none =>
      let origLines := (originalFileLines.drop (ref.line - 1)).take 1
      let newLines := resolveReplacement originalFileLines ref.line ref.line a.edit.dstLines
      if joinNl origLines = joinNl newLines then
        { st with noopEdits := st.noopEdits ++
            [⟨a.idx, natStr ref.line ++ ":" ++ ref.hash, joinNl origLines⟩] }
      else
        { fileLines := listSplice st.fileLines (ref.line - 1) 1 newLines
          firstChangedLine := trackFirstChanged st.firstChangedLine ref.line
          noopEdits := st.noopEdits }
  | .range s e =>
    let count := e.line + 1 - s.line
    let origLines := (originalFileLines.drop (s.line - 1)).take count
    let newLines := resolveReplacement originalFileLines s.line e.line a.edit.dstLines
    if joinNl origLines = joinNl newLines then
      { st with noopEdits := st.noopEdits ++
          [⟨a.idx, natStr s.line ++ ":" ++ s.hash, joinNl origLines⟩] }
    else
      { fileLines := listSplice st.fileLines (s.line - 1) count newLines
        firstChangedLine := trackFirstChanged st.firstChangedLine s.line
        noopEdits := st.noopEdits }
  | .insertAfter aft =>
    let anchorLine := originalFileLines.getD (aft.line - 1) ""
    let inserted := stripInsertAnchorEchoAfter anchorLine a.edit.dstLines
    if inserted.isEmpty then
      { st with noopEdits := st.noopEdits ++
          [⟨a.idx, natStr aft.line ++ ":" ++ aft.hash, anchorLine⟩] }
    else
      { fileLines := listSplice st.fileLines aft.line 0 inserted
        firstChangedLine := trackFirstChanged st.firstChangedLine (aft.line + 1)
        noopEdits := st.noopEdits }

structure ApplyOk where
  content : String
  firstChangedLine : Option Nat
  warnings : List String
  noopEdits : List NoopEdit
deriving DecidableEq, Repr

/-- Batch-level errors: `HashlineMismatchError` (carrying every recorded
mismatch and the file's lines; its rendered report is presentation only)
or any other thrown `Error` by message. -/
inductive ApplyError where
  | thrown (msg : String)
  | hashMismatch (mismatches : List HashMismatch) (fileLines : List String)
deriving DecidableEq, Repr

/-- Models `applyHashlineEdits`: parse, pre-validate every anchor against
one snapshot (aborting the whole batch on any recorded mismatch before
any line is touched), deduplicate, order bottom-up, apply with the
heuristic corrections, then attach the reformatting advisory. -/
def applyHashlineEdits (content : String) (edits : List HashlineEdit) :
    Except ApplyError ApplyOk :=
  if edits.isEmpty then .ok ⟨content, none, [], []⟩
  else do
    let fileLines := splitNl content
    let parsed ← (parseAllEdits edits).mapError ApplyError.thrown
    let uniq := buildUniqueLineByHash fileLines
    let vr ← (validateAll fileLines uniq parsed).mapError ApplyError.thrown
    if vr.2.isEmpty then
      let touched := touchedLines vr.1
      let deduped := dedupEdits vr.1
      let sorted := sortEdits deduped
      let st := sorted.foldl (applyOne fileLines touched) ⟨fileLines, none, []⟩
      let sizeDiff :=
        if fileLines.length ≤ st.fileLines.length then st.fileLines.length - fileLines.length
        else fileLines.length - st.fileLines.length
      let alignedDiff := ((st.fileLines.zip fileLines).filter (fun p => p.1 ≠ p.2)).length
      let diffLineCount := sizeDiff + alignedDiff
      let warnings :=
        if edits.length * 4 < diffLineCount then
          ["Edit changed " ++ natStr diffLineCount ++ " lines across " ++
            natStr edits.length ++ " operations — verify no unintended reformatting."]
        else []
      .ok ⟨joinNl st.fileLines, st.firstChangedLine, warnings, st.noopEdits⟩
    else .error (.hashMismatch vr.2 fileLines)

/-! ## The edit_file handler glue (src/server.ts) -/

/-- Models the round trip the edit_file handler performs on a file whose
normalized content the edits leave unchanged: strip the BOM, capture the
line-ending style, collapse line endings, then restore both on output. -/
def editFileRoundTrip (raw : String) : String :=
  let b := stripBom raw
  b.bom ++ restoreLineEndings (normalizeToLF b.text) (detectLineEnding b.text)

/-- The diagnostic string built by the handler's no-op batch check. -/
def noopDiagnostic (filePath : String) (noops : List NoopEdit) : String :=
  let base := "No changes made to " ++ filePath ++ ". The edits produced identical content."
  if noops.isEmpty then base
  else
    let details := String.intercalate "\n" (noops.map (fun e =>
      "Edit " ++ natStr e.editIndex ++ ": replacement for " ++ e.loc ++
        " is identical to current content:\n  " ++ e.loc ++ "| " ++ e.currentContent))
    base ++ "\n" ++ details ++
      "\nYour content must differ from what the file already contains. Re-read the file to see the current state."

/-- Models the edit_file handler for a batch of anchor edits (no
substring-replace edits): apply, then promote an identical final text to
the no-op batch error instead of a silent success. -/
def editFileAnchorBatch (filePath content : String) (edits : List HashlineEdit) :
    Except ApplyError String := do
  let r ← applyHashlineEdits content edits
  if content = r.content then .error (.thrown (noopDiagnostic filePath r.noopEdits))
  else .ok r.content

/-! ## Claim C2 — fingerprint whitespace insensitivity and shape -/

/-- Lowercase hexadecimal digit predicate. -/
def isLowerHexDigit (c : Char) : Bool := isAsciiDigit c ∨ ('a' ≤ c ∧ c ≤ 'f')

theorem hexDigitChar_isLowerHex : ∀ m < 16, isLowerHexDigit (hexDigitChar m) = true := by
  decide

/-- C2: the fingerprint depends only on the line's CR-stripped,
whitespace-stripped form — so any reformatting that only changes
whitespace never changes it — and every fingerprint is exactly two
lowercase hexadecimal characters (one of the 256 `DICT` entries). -/
theorem c2_fingerprint_whitespace_insensitive_two_hex :
    (∀ (l1 l2 : String) (i j : Nat),
        stripAllWhitespace (crStripped l1) = stripAllWhitespace (crStripped l2) →
        computeLineHash i l1 = computeLineHash j l2) ∧
    (∀ (i : Nat) (l : String),
        (computeLineHash i l).length = 2 ∧
        (computeLineHash i l).data.all isLowerHexDigit = true ∧
        ∃ k, k < 256 ∧ computeLineHash i l = toHex2 k) := by
  constructor
  · intro l1 l2 i j h
    unfold computeLineHash
    rw [h]
  · intro i l
    refine ⟨rfl, ?_, xxh32 0 (utf8Bytes (stripAllWhitespace (crStripped l))) % HASH_MOD,
      ?_, rfl⟩
    · show (toHex2 _).data.all isLowerHexDigit = true
      simp only [toHex2, List.all_cons, List.all_nil, Bool.and_true]
      rw [hexDigitChar_isLowerHex _ (Nat.mod_lt _ (by norm_num)),
        hexDigitChar_isLowerHex _ (Nat.mod_lt _ (by norm_num))]
      rfl
    · exact Nat.mod_lt _ (by decide)

/-- Witness for C2 at concrete inputs: `"  foo bar"` and `"foobar\r"`
have the same stripped form, hence the same fingerprint. -/
theorem c2_witness :
    computeLineHash 1 "  foo bar" = computeLineHash 7 "foobar\r" ∧
    (computeLineHash 1 "  foo bar").length = 2 ∧
    (computeLineHash 1 "  foo bar").data.all isLowerHexDigit = true :=
  ⟨c2_fingerprint_whitespace_insensitive_two_hex.1 "  foo bar" "foobar\r" 1 7 (by decide),
   (c2_fingerprint_whitespace_insensitive_two_hex.2 1 "  foo bar").1,
   (c2_fingerprint_whitespace_insensitive_two_hex.2 1 "  foo bar").2.1⟩

/-! ## Claim C4 — line-ending/BOM round trip -/

/-- Uniform-CRLF discipline: every carriage return is immediately
followed by a line feed and every line feed is immediately preceded by a
carriage return. -/
def uniformCrlf : List Char → Bool
  | [] => true
  | [c] => !(c = '\r' || c = '\n')
  | c1 :: c2 :: t =>
    if c1 = '\r' then (c2 = '\n') && uniformCrlf t
    else if c1 = '\n' then false
    else uniformCrlf (c2 :: t)

/-- C4 counterexample: for the input `"a\rb"` (a lone carriage return),
the capture/normalize/restore round trip of the edit_file handler is not
the identity — the lone CR comes back as LF. -/
theorem c4_counterexample :
    editFileRoundTrip "a\rb" = "a\nb" ∧ editFileRoundTrip "a\rb" ≠ "a\rb" := by
  constructor
  · decide
  · decide

theorem stripBom_recompose (raw : String) : (stripBom raw).bom ++ (stripBom raw).text = raw := by
  cases raw with
  | mk data =>
    cases data with
    | nil => rfl
    | cons c rest =>
      have hb : stripBom ⟨c :: rest⟩ =
          if c = Char.ofNat 0xFEFF then ⟨String.mk [Char.ofNat 0xFEFF], String.mk rest⟩
          else ⟨"", ⟨c :: rest⟩⟩ := rfl
      rw [hb]
      by_cases h : c = Char.ofNat 0xFEFF
      · rw [if_pos h]
        show String.mk ([Char.ofNat 0xFEFF] ++ rest) = String.mk (c :: rest)
        rw [h]
        rfl
      · rw [if_neg h]
        show String.mk ([] ++ (c :: rest)) = String.mk (c :: rest)
        rw [List.nil_append]

theorem contains_cons_false {p c : Char} {t : List Char} :
    (c :: t).contains p = false ↔ p ≠ c ∧ t.contains p = false := by
  simp [List.contains_cons]

theorem mapCrLf_no_cr (l : List Char) (h : l.contains '\r' = false) : mapCrLf l = l := by
  induction l with
  | nil => rfl
  | cons c t ih =>
    rw [contains_cons_false] at h
    simp only [mapCrLf, List.map_cons]
    rw [if_neg (fun hc => h.1 hc.symm)]
    have := ih h.2
    simp only [mapCrLf] at this
    rw [this]

theorem replaceCrlfChars_no_cr : ∀ l : List Char, l.contains '\r' = false →
    replaceCrlfChars l = l
  | [], _ => rfl
  | [_], _ => rfl
  | c1 :: c2 :: t, h => by
    rw [contains_cons_false] at h
    rw [replaceCrlfChars]
    rw [if_neg (fun hc => h.1 hc.1.symm)]
    rw [replaceCrlfChars_no_cr (c2 :: t) h.2]

/-- A successful substring search implies the pattern's head character
occurs in the text. -/
theorem indexOfSub_head_mem :
    ∀ (content : List Char) (j : Nat) (p : Char) (ps : List Char),
      indexOfSub content (p :: ps) = some j → content.contains p = true
  | [], j, p, ps, h => by
    unfold indexOfSub at h
    split at h
    · next hp => simp [List.isPrefixOf] at hp
    · exact absurd h (by simp)
  | c :: t, j, p, ps, h => by
    unfold indexOfSub at h
    split at h
    · next hp =>
      simp only [List.isPrefixOf, Bool.and_eq_true, beq_iff_eq] at hp
      simp [List.contains_cons, hp.1]
    · replace h : (indexOfSub t (p :: ps)).map (· + 1) = some j := h
      cases hv : indexOfSub t (p :: ps) with
      | none => rw [hv] at h; exact absurd h (by simp)
      | some v =>
        have := indexOfSub_head_mem t v p ps hv
        simp only [List.contains_cons, Bool.or_eq_true, this, Bool.or_true]

theorem uniformCrlf_no_lf_no_cr : ∀ l : List Char, uniformCrlf l = true →
    l.contains '\n' = false → l.contains '\r' = false
  | [], _, _ => rfl
  | [c], h, _ => by
    simp only [uniformCrlf, Bool.not_eq_eq_eq_not, Bool.not_true, Bool.or_eq_false_iff,
      decide_eq_false_iff_not] at h
    rw [contains_cons_false]
    exact ⟨fun hc => h.1 hc.symm, rfl⟩
  | c1 :: c2 :: t, h, hn => by
    rw [uniformCrlf] at h
    rw [contains_cons_false] at hn
    by_cases h1 : c1 = '\r'
    · rw [if_pos h1, Bool.and_eq_true, decide_eq_true_eq] at h
      have hn2 := hn.2
      rw [contains_cons_false] at hn2
      exact absurd h.1 (fun hc => hn2.1 hc.symm)
    · rw [if_neg h1] at h
      by_cases h2 : c1 = '\n'
      · rw [if_pos h2] at h
        exact absurd h (by simp)
      · rw [if_neg h2] at h
        have := uniformCrlf_no_lf_no_cr (c2 :: t) h hn.2
        rw [contains_cons_false]
        exact ⟨fun hc => h1 hc.symm, this⟩

theorem restore_norm_uniform : ∀ l : List Char, uniformCrlf l = true →
    restoreCrlfChars (mapCrLf (replaceCrlfChars l)) = l
  | [], _ => rfl
  | [c], h => by
    simp only [uniformCrlf, Bool.not_eq_eq_eq_not, Bool.not_true, Bool.or_eq_false_iff,
      decide_eq_false_iff_not] at h
    show restoreCrlfChars (mapCrLf [c]) = [c]
    simp only [mapCrLf, List.map_cons, List.map_nil]
    rw [if_neg h.1]
    simp only [restoreCrlfChars, List.flatMap_cons, List.flatMap_nil, List.append_nil]
    rw [if_neg h.2]
  | c1 :: c2 :: t, h => by
    rw [uniformCrlf] at h
    by_cases h1 : c1 = '\r'
    · rw [if_pos h1, Bool.and_eq_true, decide_eq_true_eq] at h
      obtain ⟨h2, ht⟩ := h
      subst h1
      subst h2
      rw [replaceCrlfChars, if_pos ⟨rfl, rfl⟩]
      simp only [mapCrLf, List.map_cons]
      rw [if_neg (by decide)]
      simp only [restoreCrlfChars, List.flatMap_cons]
      rw [if_pos trivial]
      have := restore_norm_uniform t ht
      simp only [restoreCrlfChars, mapCrLf] at this
      rw [this]
      rfl
    · rw [if_neg h1] at h
      by_cases h2 : c1 = '\n'
      · rw [if_pos h2] at h
        exact absurd h (by simp)
      · rw [if_neg h2] at h
        rw [replaceCrlfChars, if_neg (fun hc => h1 hc.1)]
        simp only [mapCrLf, List.map_cons]
        rw [if_neg h1]
        simp only [restoreCrlfChars, List.flatMap_cons]
        rw [if_neg h2]
        have := restore_norm_uniform (c2 :: t) h
        simp only [restoreCrlfChars, mapCrLf] at this
        rw [this]
        rfl

theorem detect_no_cr (t : String) (h : t.data.contains '\r' = false) :
    detectLineEnding t = .lf := by
  unfold detectLineEnding
  cases hc : indexOfSub t.data ['\r', '\n'] with
  | some v =>
    exact absurd (indexOfSub_head_mem t.data v '\r' ['\n'] hc) (by rw [h]; simp)
  | none =>
    cases indexOfSub t.data ['\n'] with
    | none => rfl
    | some _ => rfl

theorem normalize_no_cr (t : String) (h : t.data.contains '\r' = false) :
    normalizeToLF t = t := by
  unfold normalizeToLF
  rw [replaceCrlfChars_no_cr t.data h, mapCrLf_no_cr t.data h]

theorem detectLineEnding_eq (content : String) :
    detectLineEnding content =
      match indexOfSub content.data ['\n'], indexOfSub content.data ['\r', '\n'] with
      | none, _ => .lf
      | some _, none => .lf
      | some lf, some crlf => if crlf < lf then .crlf else .lf := rfl

theorem indexOfSub_cons_step (c : Char) (t pat : List Char)
    (h : pat.isPrefixOf (c :: t) = false) :
    indexOfSub (c :: t) pat = (indexOfSub t pat).map (· + 1) := by
  rw [indexOfSub]
  rw [if_neg (by rw [h]; exact fun hc => Bool.noConfusion hc)]

theorem detect_uniform_crlf : ∀ l : List Char, uniformCrlf l = true →
    l.contains '\n' = true → detectLineEnding (String.mk l) = .crlf
  | [], _, hn => by simp at hn
  | [c], h, hn => by
    simp only [uniformCrlf, Bool.not_eq_eq_eq_not, Bool.not_true, Bool.or_eq_false_iff,
      decide_eq_false_iff_not] at h
    simp only [List.contains_cons, List.contains_nil, Bool.or_false, beq_iff_eq] at hn
    exact absurd hn.symm h.2
  | c1 :: c2 :: t, h, hn => by
    rw [uniformCrlf] at h
    by_cases h1 : c1 = '\r'
    · rw [if_pos h1, Bool.and_eq_true, decide_eq_true_eq] at h
      obtain ⟨h2, _⟩ := h
      subst h1
      subst h2
      have hcrlf : indexOfSub ('\r' :: '\n' :: t) ['\r', '\n'] = some 0 := by
        rw [indexOfSub]
        rw [if_pos (by simp [List.isPrefixOf])]
      have hlfin : indexOfSub ('\n' :: t) ['\n'] = some 0 := by
        rw [indexOfSub]
        rw [if_pos (by simp [List.isPrefixOf])]
      have hlf : indexOfSub ('\r' :: '\n' :: t) ['\n'] = some 1 := by
        rw [indexOfSub_cons_step _ _ _ (by simp [List.isPrefixOf]), hlfin]
        rfl
      rw [detectLineEnding_eq]
      show (match indexOfSub ('\r' :: '\n' :: t) ['\n'],
          indexOfSub ('\r' :: '\n' :: t) ['\r', '\n'] with
        | none, _ => LineEnding.lf
        | some _, none => LineEnding.lf
        | some lf, some crlf => if crlf < lf then LineEnding.crlf else LineEnding.lf) =
        LineEnding.crlf
      rw [hlf, hcrlf]
      rfl
    · rw [if_neg h1] at h
      by_cases h2 : c1 = '\n'
      · rw [if_pos h2] at h
        exact absurd h (by simp)
      · rw [if_neg h2] at h
        have hn2 : (c2 :: t).contains '\n' = true := by
          simp only [List.contains_cons, Bool.or_eq_true, beq_iff_eq] at hn
          rcases hn with hn | hn
          · exact absurd hn.symm h2
          · simpa using hn
        have ih := detect_uniform_crlf (c2 :: t) h hn2
        rw [detectLineEnding_eq] at ih ⊢
        have hstepc : indexOfSub (c1 :: c2 :: t) ['\r', '\n'] =
            (indexOfSub (c2 :: t) ['\r', '\n']).map (· + 1) := by
          apply indexOfSub_cons_step
          simp only [List.isPrefixOf, Bool.and_eq_false_iff]
          left
          exact beq_eq_false_iff_ne.mpr (fun hp => h1 hp.symm)
        have hstepl : indexOfSub (c1 :: c2 :: t) ['\n'] =
            (indexOfSub (c2 :: t) ['\n']).map (· + 1) := by
          apply indexOfSub_cons_step
          simp only [List.isPrefixOf, Bool.and_eq_false_iff]
          left
          exact beq_eq_false_iff_ne.mpr (fun hp => h2 hp.symm)
        show (match indexOfSub (String.mk (c1 :: c2 :: t)).data ['\n'],
            indexOfSub (String.mk (c1 :: c2 :: t)).data ['\r', '\n'] with
          | none, _ => LineEnding.lf
          | some _, none => LineEnding.lf
          | some lf, some crlf => if crlf < lf then LineEnding.crlf else LineEnding.lf) =
          LineEnding.crlf
        show (match indexOfSub (c1 :: c2 :: t) ['\n'],
            indexOfSub (c1 :: c2 :: t) ['\r', '\n'] with
          | none, _ => LineEnding.lf
          | some _, none => LineEnding.lf
          | some lf, some crlf => if crlf < lf then LineEnding.crlf else LineEnding.lf) =
          LineEnding.crlf
        rw [hstepc, hstepl]
        cases hlf : indexOfSub (c2 :: t) ['\n'] with
        | none =>
          rw [hlf] at ih
          replace ih : LineEnding.lf = LineEnding.crlf := ih
          exact LineEnding.noConfusion ih
        | some lf =>
          cases hcrlf : indexOfSub (c2 :: t) ['\r', '\n'] with
          | none =>
            rw [hlf, hcrlf] at ih
            replace ih : LineEnding.lf = LineEnding.crlf := ih
            exact LineEnding.noConfusion ih
          | some crlf =>
            rw [hlf, hcrlf] at ih
            replace ih : (if crlf < lf then LineEnding.crlf else LineEnding.lf) =
              LineEnding.crlf := ih
            show (if crlf + 1 < lf + 1 then LineEnding.crlf else LineEnding.lf) =
              LineEnding.crlf
            by_cases hlt : crlf < lf
            · rw [if_pos (by omega)]
            · rw [if_neg hlt] at ih
              exact LineEnding.noConfusion ih

/-- C4 amended: the capture/normalize/restore round trip is the identity
for every input whose (BOM-stripped) text has uniform line endings —
either it contains no carriage return at all, or every line break is the
two-character CRLF sequence.  (The unrestricted claim fails on inputs
with lone CRs or mixed endings, see `c4_counterexample`.) -/
theorem c4_roundtrip_uniform_endings (raw : String)
    (h : (stripBom raw).text.data.contains '\r' = false ∨
      uniformCrlf (stripBom raw).text.data = true) :
    editFileRoundTrip raw = raw := by
  unfold editFileRoundTrip
  show (stripBom raw).bom ++ restoreLineEndings (normalizeToLF (stripBom raw).text)
    (detectLineEnding (stripBom raw).text) = raw
  rcases h with h | h
  · rw [normalize_no_cr _ h, detect_no_cr _ h]
    exact stripBom_recompose raw
  · by_cases hn : (stripBom raw).text.data.contains '\n' = true
    · have hd : detectLineEnding (stripBom raw).text = .crlf :=
        detect_uniform_crlf (stripBom raw).text.data h hn
      rw [hd]
      show (stripBom raw).bom ++
        String.mk (restoreCrlfChars (mapCrLf (replaceCrlfChars (stripBom raw).text.data))) =
        raw
      rw [restore_norm_uniform _ h]
      exact stripBom_recompose raw
    · have hcr := uniformCrlf_no_lf_no_cr _ h (by
        cases hv : (stripBom raw).text.data.contains '\n'
        · rfl
        · exact absurd hv hn)
      rw [normalize_no_cr _ hcr, detect_no_cr _ hcr]
      exact stripBom_recompose raw


/-- Witness for C4 amended: a BOM-carrying strict-CRLF input round-trips
byte-identically. -/
theorem c4_witness : editFileRoundTrip "\uFEFFa\r\nb\r\n" = "\uFEFFa\r\nb\r\n" :=
  c4_roundtrip_uniform_endings "\uFEFFa\r\nb\r\n" (Or.inr (by decide))

/-! ## Claim C6 \u2014 boundary-echo stripping never treats blanks as an echo -/

theorem getLastD_drop_one {l : List String} (h : 1 < l.length) :
    (l.drop 1).getLastD "" = l.getLastD "" := by
  match l, h with
  | a :: b :: t, _ =>
    show (b :: t).getLastD "" = (a :: b :: t).getLastD ""
    rw [List.getLastD_eq_getLast?, List.getLastD_eq_getLast?, List.getLast?_cons_cons]

/-- C6: a replacement line is stripped as a boundary echo only when both
it and the corresponding file line are non-blank and whitespace-equal;
whenever either side is blank (or there is no line on that side), no
replacement line is stripped on that side.  The same blank-line exclusion
holds for insert_after anchor-echo stripping. -/
theorem c6_blank_lines_never_echo (fileLines : List String) (startLine endLine : Nat)
    (dst : List String) (anchorLine : String) :
    (isSubstantive (dst.headD "") = false →
      stripRangeBoundaryEcho fileLines startLine endLine dst = dst ∨
      stripRangeBoundaryEcho fileLines startLine endLine dst = dst.dropLast) ∧
    (2 ≤ startLine → isSubstantive (fileLines.getD (startLine - 2) "") = false →
      stripRangeBoundaryEcho fileLines startLine endLine dst = dst ∨
      stripRangeBoundaryEcho fileLines startLine endLine dst = dst.dropLast) ∧
    (startLine < 2 →
      stripRangeBoundaryEcho fileLines startLine endLine dst = dst ∨
      stripRangeBoundaryEcho fileLines startLine endLine dst = dst.dropLast) ∧
    (isSubstantive (dst.getLastD "") = false →
      stripRangeBoundaryEcho fileLines startLine endLine dst = dst ∨
      stripRangeBoundaryEcho fileLines startLine endLine dst = dst.drop 1) ∧
    (isSubstantive (fileLines.getD endLine "") = false →
      stripRangeBoundaryEcho fileLines startLine endLine dst = dst ∨
      stripRangeBoundaryEcho fileLines startLine endLine dst = dst.drop 1) ∧
    (fileLines.length ≤ endLine →
      stripRangeBoundaryEcho fileLines startLine endLine dst = dst ∨
      stripRangeBoundaryEcho fileLines startLine endLine dst = dst.drop 1) ∧
    (stripRangeBoundaryEcho fileLines startLine endLine dst ≠ dst →
      (1 < dst.length ∧ endLine - startLine + 1 < dst.length) ∧
      ((2 ≤ startLine ∧ isSubstantive (dst.headD "") = true ∧
          isSubstantive (fileLines.getD (startLine - 2) "") = true ∧
          vibeCheck (dst.headD "") (fileLines.getD (startLine - 2) "") = true) ∨
       (endLine < fileLines.length ∧ isSubstantive (dst.getLastD "") = true ∧
          isSubstantive (fileLines.getD endLine "") = true ∧
          vibeCheck (dst.getLastD "") (fileLines.getD endLine "") = true))) ∧
    (isSubstantive anchorLine = false ∨ isSubstantive (dst.headD "") = false →
      stripInsertAnchorEchoAfter anchorLine dst = dst) ∧
    (stripInsertAnchorEchoAfter anchorLine dst ≠ dst →
      2 ≤ dst.length ∧ isSubstantive anchorLine = true ∧
        isSubstantive (dst.headD "") = true ∧
        vibeCheck (dst.headD "") anchorLine = true ∧
        stripInsertAnchorEchoAfter anchorLine dst = dst.drop 1) := by
  have core : stripRangeBoundaryEcho fileLines startLine endLine dst = dst ∨
      ((1 < dst.length ∧ endLine - startLine + 1 < dst.length) ∧
        ((srbeLeadCond fileLines startLine dst ∧
           ((¬ srbeTrailCond fileLines endLine (dst.drop 1) ∧
              stripRangeBoundaryEcho fileLines startLine endLine dst = dst.drop 1) ∨
            (srbeTrailCond fileLines endLine (dst.drop 1) ∧
              stripRangeBoundaryEcho fileLines startLine endLine dst =
                (dst.drop 1).dropLast))) ∨
         (¬ srbeLeadCond fileLines startLine dst ∧
           srbeTrailCond fileLines endLine dst ∧
           stripRangeBoundaryEcho fileLines startLine endLine dst = dst.dropLast))) := by
    unfold stripRangeBoundaryEcho
    by_cases h0 : dst.length ≤ 1 ∨ dst.length ≤ endLine - startLine + 1
    · rw [if_pos h0]
      exact Or.inl rfl
    · rw [if_neg h0]
      by_cases hl : srbeLeadCond fileLines startLine dst
      · rw [if_pos hl]
        by_cases ht : srbeTrailCond fileLines endLine (dst.drop 1)
        · rw [if_pos ht]
          exact Or.inr ⟨by omega, Or.inl ⟨hl, Or.inr ⟨ht, rfl⟩⟩⟩
        · rw [if_neg ht]
          exact Or.inr ⟨by omega, Or.inl ⟨hl, Or.inl ⟨ht, rfl⟩⟩⟩
      · rw [if_neg hl]
        by_cases ht : srbeTrailCond fileLines endLine dst
        · rw [if_pos ht]
          exact Or.inr ⟨by omega, Or.inr ⟨hl, ht, rfl⟩⟩
        · rw [if_neg ht]
          exact Or.inl rfl
  have hlast : 1 < dst.length → (dst.drop 1).getLastD "" = dst.getLastD "" :=
    fun h => getLastD_drop_one h
  refine ⟨?_, ?_, ?_, ?_, ?_, ?_, ?_, ?_, ?_⟩
  · intro hb
    rcases core with h | ⟨_, ⟨hl, _⟩ | ⟨_, _, hr⟩⟩
    · exact Or.inl h
    · exact absurd hl.2.1 (by rw [hb]; exact fun hc => Bool.noConfusion hc)
    · exact Or.inr hr
  · intro hs hb
    rcases core with h | ⟨_, ⟨hl, _⟩ | ⟨_, _, hr⟩⟩
    · exact Or.inl h
    · exact absurd hl.2.2.1 (by rw [hb]; exact fun hc => Bool.noConfusion hc)
    · exact Or.inr hr
  · intro hs
    rcases core with h | ⟨_, ⟨hl, _⟩ | ⟨_, _, hr⟩⟩
    · exact Or.inl h
    · exact absurd hl.1 (by omega)
    · exact Or.inr hr
  · intro hb
    rcases core with h | ⟨⟨hlen, _⟩, ⟨_, ⟨_, hr⟩ | ⟨ht, _⟩⟩ | ⟨_, ht, _⟩⟩
    · exact Or.inl h
    · exact Or.inr hr
    · exact absurd ht.2.2.1 (by rw [hlast hlen, hb]; exact fun hc => Bool.noConfusion hc)
    · exact absurd ht.2.2.1 (by rw [hb]; exact fun hc => Bool.noConfusion hc)
  · intro hb
    rcases core with h | ⟨⟨hlen, _⟩, ⟨_, ⟨_, hr⟩ | ⟨ht, _⟩⟩ | ⟨_, ht, _⟩⟩
    · exact Or.inl h
    · exact Or.inr hr
    · exact absurd ht.2.2.2.1 (by rw [hb]; exact fun hc => Bool.noConfusion hc)
    · exact absurd ht.2.2.2.1 (by rw [hb]; exact fun hc => Bool.noConfusion hc)
  · intro hb
    rcases core with h | ⟨⟨hlen, _⟩, ⟨_, ⟨_, hr⟩ | ⟨ht, _⟩⟩ | ⟨_, ht, _⟩⟩
    · exact Or.inl h
    · exact Or.inr hr
    · exact absurd ht.1 (by omega)
    · exact absurd ht.1 (by omega)
  · intro hne
    rcases core with h | ⟨⟨hlen, hcount⟩, ⟨hl, _⟩ | ⟨_, ht, _⟩⟩
    · exact absurd h hne
    · exact ⟨⟨hlen, hcount⟩, Or.inl hl⟩
    · exact ⟨⟨hlen, hcount⟩, Or.inr ⟨ht.1, ht.2.2.1, ht.2.2.2.1, ht.2.2.2.2⟩⟩
  · intro hb
    unfold stripInsertAnchorEchoAfter
    by_cases h0 : dst.length ≤ 1
    · rw [if_pos h0]
    · rw [if_neg h0]
      rw [if_pos (by
        rcases hb with hb | hb
        · exact Or.inl (by rw [hb]; exact fun hc => Bool.noConfusion hc)
        · exact Or.inr (by rw [hb]; exact fun hc => Bool.noConfusion hc))]
  · intro hne
    unfold stripInsertAnchorEchoAfter at hne ⊢
    by_cases h0 : dst.length ≤ 1
    · rw [if_pos h0] at hne
      exact absurd rfl hne
    · rw [if_neg h0] at hne ⊢
      by_cases h1 : ¬ isSubstantive anchorLine = true ∨ ¬ isSubstantive (dst.headD "") = true
      · rw [if_pos h1] at hne
        exact absurd rfl hne
      · rw [if_neg h1] at hne ⊢
        push_neg at h1
        by_cases h2 : vibeCheck (dst.headD "") anchorLine = true
        · rw [if_pos h2]
          exact ⟨by omega, h1.1, h1.2, h2, rfl⟩
        · rw [if_neg h2] at hne
          exact absurd rfl hne

/-- Witness for C6: with a blank first replacement line (and a blank
anchor line) nothing is stripped. -/
theorem c6_witness :
    (stripRangeBoundaryEcho ["aaa", "", "ccc"] 2 2 ["", "X", ""] = ["", "X", ""] ∨
      stripRangeBoundaryEcho ["aaa", "", "ccc"] 2 2 ["", "X", ""] =
        (["", "X", ""] : List String).dropLast) ∧
    stripInsertAnchorEchoAfter "" ["", "x"] = ["", "x"] :=
  ⟨(c6_blank_lines_never_echo ["aaa", "", "ccc"] 2 2 ["", "X", ""] "").1 (by decide),
   (c6_blank_lines_never_echo ["aaa", "", "ccc"] 2 2 ["", "x"] "").2.2.2.2.2.2.2.1
     (Or.inl (by decide))⟩


/-! ## Claim C3 — anchor relocation via the unique-fingerprint index -/

/-- The 1-indexed positions (starting at `lineNo`) of the lines whose
fingerprint is `h`. -/
def hashOccsFrom (h : String) (lineNo : Nat) : List String → List Nat
  | [] => []
  | l :: rest =>
    if computeLineHash lineNo l = h then lineNo :: hashOccsFrom h (lineNo + 1) rest
    else hashOccsFrom h (lineNo + 1) rest

/-- The 1-indexed lines of the file whose fingerprint is `h`. -/
def hashOccs (fileLines : List String) (h : String) : List Nat := hashOccsFrom h 1 fileLines

theorem hashOccsFrom_cons (h : String) (lineNo : Nat) (l : String) (rest : List String) :
    hashOccsFrom h lineNo (l :: rest) =
      if computeLineHash lineNo l = h then lineNo :: hashOccsFrom h (lineNo + 1) rest
      else hashOccsFrom h (lineNo + 1) rest := rfl

theorem assocLookup_cons {α : Type} (p : String × α) (m : List (String × α)) (h : String) :
    assocLookup (p :: m) h = if p.1 = h then some p.2 else assocLookup m h := by
  unfold assocLookup
  simp only [List.find?]
  by_cases hp : p.1 = h
  · rw [decide_eq_true hp, if_pos hp]
  · rw [decide_eq_false hp, if_neg hp]

theorem assocLookup_append_single {α : Type} (m : List (String × α)) (k : String) (v : α)
    (h : String) :
    assocLookup (m ++ [(k, v)]) h =
      match assocLookup m h with
      | some w => some w
      | none => if h = k then some v else none := by
  induction m with
  | nil =>
    show assocLookup [(k, v)] h = _
    rw [assocLookup_cons]
    show (if k = h then some v else assocLookup [] h) = _
    by_cases hk : k = h
    · rw [if_pos hk]
      show _ = if h = k then some v else none
      rw [if_pos hk.symm]
    · rw [if_neg hk]
      show assocLookup [] h = if h = k then some v else none
      rw [if_neg (fun hc => hk hc.symm)]
      rfl
  | cons p rest ih =>
    show assocLookup (p :: (rest ++ [(k, v)])) h = _
    rw [assocLookup_cons, assocLookup_cons]
    by_cases hp : p.1 = h
    · rw [if_pos hp, if_pos hp]
    · rw [if_neg hp, if_neg hp]
      exact ih

theorem assocLookup_filter_ne {α : Type} (m : List (String × α)) (k h : String) :
    assocLookup (m.filter (fun p => p.1 ≠ k)) h =
      if h = k then none else assocLookup m h := by
  induction m with
  | nil =>
    by_cases hk : h = k
    · simp [assocLookup, hk]
    · simp [assocLookup, hk]
  | cons p rest ih =>
    simp only [List.filter_cons]
    by_cases hp : p.1 = k
    · rw [if_neg (by simp [hp])]
      rw [ih, assocLookup_cons]
      by_cases hk : h = k
      · rw [if_pos hk, if_pos hk]
      · rw [if_neg hk, if_neg hk, if_neg (fun hc => hk (by rw [← hc, hp]))]
    · rw [if_pos (by simp [hp])]
      rw [assocLookup_cons, assocLookup_cons, ih]
      by_cases hph : p.1 = h
      · rw [if_pos hph, if_pos hph]
        rw [if_neg (fun hk => hp (by rw [hph, hk]))]
      · rw [if_neg hph, if_neg hph]

theorem contains_cons_ne {a h : String} {l : List String} (hne : h ≠ a) :
    (a :: l).contains h = l.contains h := by
  rw [List.contains_cons]
  rw [beq_eq_false_iff_ne.mpr hne, Bool.false_or]

theorem buildUniqGo_lookup : ∀ (ls : List String) (lineNo : Nat)
    (map : List (String × Nat)) (dups : List String) (h : String),
    assocLookup (buildUniqGo lineNo ls map dups) h =
      if dups.contains h then assocLookup map h
      else
        match hashOccsFrom h lineNo ls, assocLookup map h with
        | [], v => v
        | [L], none => some L
        | _, _ => none
  | [], lineNo, map, dups, h => by
    unfold buildUniqGo
    by_cases hd : dups.contains h
    · rw [if_pos hd]
    · rw [if_neg hd]
      show assocLookup map h = match ([] : List Nat), assocLookup map h with
        | [], v => v
        | [L], none => some L
        | _, _ => none
      cases assocLookup map h <;> rfl
  | l :: rest, lineNo, map, dups, h => by
    unfold buildUniqGo
    by_cases hdl : dups.contains (computeLineHash lineNo l)
    · rw [if_pos hdl]
      rw [buildUniqGo_lookup rest (lineNo + 1) map dups h]
      by_cases hd : dups.contains h
      · rw [if_pos hd, if_pos hd]
      · rw [if_neg hd, if_neg hd]
        have hne : computeLineHash lineNo l ≠ h := fun he => hd (he ▸ hdl)
        rw [hashOccsFrom_cons, if_neg hne]
    · rw [if_neg hdl]
      cases hlk : assocLookup map (computeLineHash lineNo l) with
      | some w =>
        rw [buildUniqGo_lookup rest (lineNo + 1) (map.filter
          (fun p => p.1 ≠ computeLineHash lineNo l)) (computeLineHash lineNo l :: dups) h]
        by_cases hh : h = computeLineHash lineNo l
        · rw [if_pos (by rw [List.contains_cons, beq_iff_eq.mpr hh]; rfl)]
          rw [assocLookup_filter_ne, if_pos hh]
          have hd : dups.contains h = false := by
            cases hv : dups.contains h
            · rfl
            · rw [hh] at hv
              exact absurd hv (by rw [Bool.not_eq_true] at hdl ⊢; exact hdl ▸ hdl)
          rw [if_neg (by rw [hd]; exact fun hc => Bool.noConfusion hc)]
          rw [hashOccsFrom_cons, if_pos hh.symm, hh, hlk]
          cases hashOccsFrom (computeLineHash lineNo l) (lineNo + 1) rest <;> rfl
        · rw [contains_cons_ne hh, assocLookup_filter_ne, if_neg hh]
          by_cases hd : dups.contains h
          · rw [if_pos hd, if_pos hd]
          · rw [if_neg hd, if_neg hd]
            rw [hashOccsFrom_cons, if_neg (fun hc => hh hc.symm)]
      | none =>
        rw [buildUniqGo_lookup rest (lineNo + 1)
          (map ++ [(computeLineHash lineNo l, lineNo)]) dups h]
        by_cases hh : h = computeLineHash lineNo l
        · subst hh
          have hd : dups.contains (computeLineHash lineNo l) = false := by
            cases hv : dups.contains (computeLineHash lineNo l)
            · rfl
            · exact absurd hv hdl
          rw [if_neg (by rw [hd]; exact fun hc => Bool.noConfusion hc),
            if_neg (by rw [hd]; exact fun hc => Bool.noConfusion hc)]
          have hlk2 : assocLookup (map ++ [(computeLineHash lineNo l, lineNo)])
              (computeLineHash lineNo l) = some lineNo := by
            rw [assocLookup_append_single, hlk]
            exact if_pos rfl
          rw [hlk2, hlk, hashOccsFrom_cons, if_pos rfl]
          cases hashOccsFrom (computeLineHash lineNo l) (lineNo + 1) rest with
          | nil => rfl
          | cons a t => cases t <;> rfl
        · by_cases hd : dups.contains h
          · rw [if_pos hd, if_pos hd, assocLookup_append_single]
            cases hv : assocLookup map h with
            | some w => rfl
            | none =>
              show (if h = computeLineHash lineNo l then some lineNo else none) = none
              rw [if_neg hh]
          · rw [if_neg hd, if_neg hd, assocLookup_append_single]
            rw [hashOccsFrom_cons, if_neg (Ne.symm hh)]
            cases hv : assocLookup map h with
            | some w => cases hashOccsFrom h (lineNo + 1) rest with
              | nil => rfl
              | cons a t => cases t <;> rfl
            | none =>
              show (match hashOccsFrom h (lineNo + 1) rest,
                  (if h = computeLineHash lineNo l then some lineNo else none) with
                | [], v => v
                | [L], none => some L
                | _, _ => none) = _
              rw [if_neg hh]

/-- The one-pass fingerprint index maps `h` to `L` exactly when `h` is the
fingerprint of exactly one line, namely line `L`. -/
theorem buildUniq_lookup (fileLines : List String) (h : String) :
    assocLookup (buildUniqueLineByHash fileLines) h =
      match hashOccs fileLines h with
      | [L] => some L
      | _ => none := by
  unfold buildUniqueLineByHash hashOccs
  rw [buildUniqGo_lookup fileLines 1 [] [] h]
  rw [if_neg (fun hc => Bool.noConfusion hc)]
  show (match hashOccsFrom h 1 fileLines, (none : Option Nat) with
    | [], v => v
    | [L], none => some L
    | _, _ => none) = _
  cases hashOccsFrom h 1 fileLines with
  | nil => rfl
  | cons a t => cases t <;> rfl

/-- C3: when an anchor's stated line no longer carries its fingerprint,
validation relocates it to the unique line carrying that fingerprint when
there is exactly one, and records a mismatch when the fingerprint is
absent or ambiguous; in particular the spec's example — an externally
prepended first line — relocates a `set_line` edit from line 1 to line 2. -/
theorem c3_relocation_unique_fingerprint (fileLines : List String) (ref : LineRef)
    (h1 : 1 ≤ ref.line) (h2 : ref.line ≤ fileLines.length)
    (hm : computeLineHash ref.line (fileLines.getD (ref.line - 1) "") ≠ jsToLower ref.hash) :
    (∀ L, hashOccs fileLines (jsToLower ref.hash) = [L] →
      validateOrRelocateRef fileLines (buildUniqueLineByHash fileLines) ref =
        .ok (⟨L, ref.hash⟩, true, none)) ∧
    ((∀ L, hashOccs fileLines (jsToLower ref.hash) ≠ [L]) →
      validateOrRelocateRef fileLines (buildUniqueLineByHash fileLines) ref =
        .ok (ref, false, some ⟨ref.line, ref.hash,
          computeLineHash ref.line (fileLines.getD (ref.line - 1) "")⟩)) ∧
    applyHashlineEdits "zzz\naaa\nbbb\nccc"
        [.set_line ("1:" ++ computeLineHash 1 "aaa") "AAA"] =
      .ok ⟨"zzz\nAAA\nbbb\nccc", some 2, [], []⟩ := by
  refine ⟨?_, ?_, by decide⟩
  · intro L hL
    unfold validateOrRelocateRef
    rw [if_neg (by omega)]
    rw [if_neg hm]
    rw [buildUniq_lookup, hL]
  · intro hno
    unfold validateOrRelocateRef
    rw [if_neg (by omega)]
    rw [if_neg hm]
    rw [buildUniq_lookup]
    cases hocc : hashOccs fileLines (jsToLower ref.hash) with
    | nil => rfl
    | cons a t =>
      cases t with
      | nil => exact absurd hocc (hno a)
      | cons b t2 => rfl

/-- Witness for C3: the concrete relocation scenario of the spec. -/
theorem c3_witness :
    validateOrRelocateRef ["zzz", "aaa", "bbb", "ccc"]
        (buildUniqueLineByHash ["zzz", "aaa", "bbb", "ccc"]) ⟨1, "5f"⟩ =
      .ok (⟨2, "5f"⟩, true, none) :=
  (c3_relocation_unique_fingerprint ["zzz", "aaa", "bbb", "ccc"] ⟨1, "5f"⟩
    (by decide) (by decide) (by decide)).1 2 (by decide)

/-! ## Claim C1 — a recorded mismatch aborts the whole batch -/

/-- C1 counterexample: anchor `1:01` fails validation on `"aaa\nbbb"`
(its fingerprint matches neither line 1 nor any unique other line), yet
the batch aborts with the generic empty-insert error of a later edit, not
with a `HashlineMismatchError`. -/
theorem c1_counterexample :
    applyHashlineEdits "aaa\nbbb" [.set_line "1:01" "zzz", .insert_after "2:67" ""] =
      .error (.thrown "Insert-after edit requires non-empty dst") ∧
    computeLineHash 1 "aaa" ≠ "01" ∧
    hashOccs ["aaa", "bbb"] "01" = [] := by
  exact ⟨by decide, by decide, by decide⟩

theorem except_bind_ok {ε α β : Type} (a : α) (f : α → Except ε β) :
    (Except.ok a : Except ε α) >>= f = f a := rfl

theorem except_bind_error {ε α β : Type} (e : ε) (f : α → Except ε β) :
    (Except.error e : Except ε α) >>= f = .error e := rfl

theorem except_mapError_ok {ε ε2 α : Type} (f : ε → ε2) (a : α) :
    (Except.ok a : Except ε α).mapError f = .ok a := rfl

theorem except_mapError_error {ε ε2 α : Type} (f : ε → ε2) (e : ε) :
    (Except.error e : Except ε α).mapError f = .error (f e) := rfl

/-- C1 amended: when the pre-validation pass completes without a generic
throw (no out-of-range line, no inverted range, no empty insert text) and
records at least one mismatch, the whole batch aborts with a
`HashlineMismatchError` carrying exactly the recorded mismatch list, and
no result content is produced; conversely, a successful application
implies the validation pass recorded no mismatch at all — validation
happens entirely before any mutation. -/
theorem c1_mismatch_aborts_batch :
    (∀ (content : String) (edits : List HashlineEdit) (parsed pr : List ParsedEdit)
        (ms : List HashMismatch),
      parseAllEdits edits = .ok parsed →
      validateAll (splitNl content) (buildUniqueLineByHash (splitNl content)) parsed =
        .ok (pr, ms) →
      ms ≠ [] →
      applyHashlineEdits content edits = .error (.hashMismatch ms (splitNl content))) ∧
    (∀ (content : String) (edits : List HashlineEdit) (r : ApplyOk),
      applyHashlineEdits content edits = .ok r →
      ∃ parsed pr, parseAllEdits edits = .ok parsed ∧
        validateAll (splitNl content) (buildUniqueLineByHash (splitNl content)) parsed =
          .ok (pr, [])) := by
  constructor
  · intro content edits parsed pr ms hp hv hne
    cases edits with
    | nil =>
      have h0 : (Except.ok [] : Except String (List ParsedEdit)) = .ok parsed := hp
      injection h0 with h0
      subst h0
      have h1 : (Except.ok ([], []) :
          Except String (List ParsedEdit × List HashMismatch)) = .ok (pr, ms) := hv
      injection h1 with h1
      exact absurd (congrArg Prod.snd h1).symm hne
    | cons e es =>
      unfold applyHashlineEdits
      rw [if_neg (by simp)]
      simp only [hp, hv, except_mapError_ok, except_bind_ok]
      rw [if_neg (by
        cases ms with
        | nil => exact absurd rfl hne
        | cons m t => simp)]
  · intro content edits r hr
    cases edits with
    | nil => exact ⟨[], [], rfl, rfl⟩
    | cons e es =>
      unfold applyHashlineEdits at hr
      rw [if_neg (by simp)] at hr
      cases hp : parseAllEdits (e :: es) with
      | error msg =>
        rw [hp] at hr
        rw [except_mapError_error, except_bind_error] at hr
        exact Except.noConfusion hr
      | ok parsed =>
        rw [hp] at hr
        rw [except_mapError_ok, except_bind_ok] at hr
        simp only [] at hr
        cases hv : validateAll (splitNl content)
            (buildUniqueLineByHash (splitNl content)) parsed with
        | error msg =>
          rw [hv] at hr
          rw [except_mapError_error, except_bind_error] at hr
          exact Except.noConfusion hr
        | ok vr =>
          rw [hv] at hr
          rw [except_mapError_ok, except_bind_ok] at hr
          cases hvv : vr.2 with
          | nil =>
            refine ⟨parsed, vr.1, rfl, ?_⟩
            rw [hv]
            show Except.ok (vr.1, vr.2) = Except.ok (vr.1, [])
            rw [hvv]
          | cons m t =>
            rw [hvv] at hr
            rw [if_neg (by simp)] at hr
            exact Except.noConfusion hr

/-- Witness for C1 amended: a single stale anchor on `"aaa\nbbb"` aborts
the batch with the full mismatch list. -/
theorem c1_witness :
    applyHashlineEdits "aaa\nbbb" [.set_line "1:01" "zzz"] =
      .error (.hashMismatch [⟨1, "01", "5f"⟩] ["aaa", "bbb"]) := by
  have := c1_mismatch_aborts_batch.1 "aaa\nbbb" [.set_line "1:01" "zzz"]
    [⟨.single ⟨1, "01"⟩, ["zzz"]⟩] [⟨.single ⟨1, "01"⟩, ["zzz"]⟩]
    [⟨1, "01", "5f"⟩] (by decide) (by decide) (by decide)
  exact (by decide : splitNl "aaa\nbbb" = ["aaa", "bbb"]) ▸ this

/-! ## Single-edit batch reduction (shared by C7 and C9) -/

theorem parseAll_single (e : HashlineEdit) (spec : ParsedSpec) (dst : String)
    (hp : parseHashlineEdit e = .ok (spec, dst)) :
    parseAllEdits [e] = .ok [⟨spec, stripNewLinePrefixes (splitDstLines dst)⟩] := by
  unfold parseAllEdits
  show List.mapM _ [e] = _
  rw [List.mapM_cons, hp]
  rfl

theorem validateAll_single (f : List String) (u : List (String × Nat)) (p q : ParsedEdit)
    (ms : List HashMismatch) (h : validateOne f u p = .ok (q, ms)) :
    validateAll f u [p] = .ok ([q], ms ++ []) := by
  unfold validateAll
  rw [h]
  rfl

theorem valRef_exact (f : List String) (u : List (String × Nat)) (ref : LineRef)
    (h1 : 1 ≤ ref.line) (h2 : ref.line ≤ f.length)
    (hh : computeLineHash ref.line (f.getD (ref.line - 1) "") = jsToLower ref.hash) :
    validateOrRelocateRef f u ref = .ok (ref, false, none) := by
  unfold validateOrRelocateRef
  rw [if_neg (by omega)]
  rw [if_pos hh]

theorem validateOne_insertAfter (f : List String) (u : List (String × Nat)) (ref : LineRef)
    (dstL : List String) (hne : dstL ≠ [])
    (hval : validateOrRelocateRef f u ref = .ok (ref, false, none)) :
    validateOne f u ⟨.insertAfter ref, dstL⟩ = .ok (⟨.insertAfter ref, dstL⟩, []) := by
  unfold validateOne
  simp only []
  rw [if_neg (by
    intro hlen
    exact hne (List.eq_nil_of_length_eq_zero hlen))]
  rw [hval]
  rfl

theorem validateOne_single (f : List String) (u : List (String × Nat)) (ref : LineRef)
    (dstL : List String)
    (hval : validateOrRelocateRef f u ref = .ok (ref, false, none)) :
    validateOne f u ⟨.single ref, dstL⟩ = .ok (⟨.single ref, dstL⟩, []) := by
  unfold validateOne
  simp only []
  rw [hval]
  rfl

/-- Reduction of a successfully-validated one-edit batch to a single
`applyOne` step (deduplication and bottom-up ordering are the identity on
a singleton). -/
theorem applyHashlineEdits_single (content : String) (e : HashlineEdit)
    (spec p1 : ParsedSpec) (dst : String) (dstL : List String)
    (hd : dstL = stripNewLinePrefixes (splitDstLines dst))
    (hp : parseHashlineEdit e = .ok (spec, dst))
    (hv : validateOne (splitNl content) (buildUniqueLineByHash (splitNl content))
        ⟨spec, dstL⟩ = .ok (⟨p1, dstL⟩, [])) :
    ∃ w, applyHashlineEdits content [e] =
      .ok { content := joinNl ((sortEdits (dedupEdits [⟨p1, dstL⟩])).foldl
              (applyOne (splitNl content) (touchedLines [⟨p1, dstL⟩]))
              ⟨splitNl content, none, []⟩).fileLines
            firstChangedLine := ((sortEdits (dedupEdits [⟨p1, dstL⟩])).foldl
              (applyOne (splitNl content) (touchedLines [⟨p1, dstL⟩]))
              ⟨splitNl content, none, []⟩).firstChangedLine
            warnings := w
            noopEdits := ((sortEdits (dedupEdits [⟨p1, dstL⟩])).foldl
              (applyOne (splitNl content) (touchedLines [⟨p1, dstL⟩]))
              ⟨splitNl content, none, []⟩).noopEdits } := by
  subst hd
  unfold applyHashlineEdits
  rw [if_neg (by simp)]
  rw [parseAll_single e spec dst hp, except_mapError_ok, except_bind_ok]
  simp only []
  rw [validateAll_single _ _ _ _ _ hv, except_mapError_ok, except_bind_ok]
  exact ⟨_, rfl⟩

/-! ## Claim C7 — insert_after anchor-echo stripping -/

/-- C7 counterexample: a one-line replacement that exactly echoes the
anchor line is NOT dropped (the source returns a `<= 1`-line replacement
unchanged), so the echoed line is inserted as a duplicate instead of the
claimed "drop the first line and insert the rest". -/
theorem c7_counterexample :
    stripInsertAnchorEchoAfter "aaa" ["aaa"] = ["aaa"] ∧
    vibeCheck "aaa" "aaa" = true ∧ isSubstantive "aaa" = true ∧
    applyHashlineEdits "aaa" [.insert_after "1:5f" "aaa"] =
      .ok ⟨"aaa\naaa", some 2, [], []⟩ := by
  exact ⟨by decide, by decide, by decide, by decide⟩

/-- C7 amended: for every insert_after edit whose (prefix-stripped)
replacement has at least two lines and whose first line is non-blank and
whitespace-equal to the anchor line, that first line is dropped and only
the remaining lines are inserted immediately after the anchor position;
an insert_after edit with empty replacement text is rejected with an
error during validation, before any mutation. -/
theorem c7_insert_after_echo (content anchor txt : String) (L : Nat) (hsh : String)
    (hp : parseLineRef anchor = .ok ⟨L, hsh⟩)
    (h1 : 1 ≤ L) (h2 : L ≤ (splitNl content).length)
    (hh : computeLineHash L ((splitNl content).getD (L - 1) "") = jsToLower hsh)
    (hlen : 2 ≤ (stripNewLinePrefixes (splitDstLines txt)).length)
    (hsub : isSubstantive ((splitNl content).getD (L - 1) "") = true)
    (hsubd : isSubstantive ((stripNewLinePrefixes (splitDstLines txt)).headD "") = true)
    (hvibe : vibeCheck ((stripNewLinePrefixes (splitDstLines txt)).headD "")
      ((splitNl content).getD (L - 1) "") = true) :
    (∃ w, applyHashlineEdits content [.insert_after anchor txt] =
      .ok { content := joinNl ((splitNl content).take L ++
              (stripNewLinePrefixes (splitDstLines txt)).drop 1 ++
              (splitNl content).drop L)
            firstChangedLine := some (L + 1)
            warnings := w
            noopEdits := [] }) ∧
    applyHashlineEdits content [.insert_after anchor ""] =
      .error (.thrown "Insert-after edit requires non-empty dst") := by
  constructor
  · have hparse : parseHashlineEdit (.insert_after anchor txt) =
        .ok (.insertAfter ⟨L, hsh⟩, txt) := by
      unfold parseHashlineEdit
      simp only []
      rw [hp]
      rfl
    have hval := valRef_exact (splitNl content) (buildUniqueLineByHash (splitNl content))
      ⟨L, hsh⟩ h1 h2 hh
    have hvo := validateOne_insertAfter (splitNl content)
      (buildUniqueLineByHash (splitNl content)) ⟨L, hsh⟩
      (stripNewLinePrefixes (splitDstLines txt))
      (by intro hnil; rw [hnil] at hlen; simp at hlen) hval
    obtain ⟨w, hw⟩ := applyHashlineEdits_single content (.insert_after anchor txt)
      (.insertAfter ⟨L, hsh⟩) (.insertAfter ⟨L, hsh⟩) txt
      (stripNewLinePrefixes (splitDstLines txt)) rfl hparse hvo
    refine ⟨w, ?_⟩
    rw [hw]
    have hsort : sortEdits (dedupEdits
        [⟨.insertAfter ⟨L, hsh⟩, stripNewLinePrefixes (splitDstLines txt)⟩]) =
        [⟨⟨.insertAfter ⟨L, hsh⟩, stripNewLinePrefixes (splitDstLines txt)⟩, 0, L, 1⟩] := rfl
    rw [hsort]
    have hstrip : stripInsertAnchorEchoAfter ((splitNl content).getD (L - 1) "")
        (stripNewLinePrefixes (splitDstLines txt)) =
        (stripNewLinePrefixes (splitDstLines txt)).drop 1 := by
      unfold stripInsertAnchorEchoAfter
      rw [if_neg (by omega)]
      rw [if_neg (by
        rw [hsub, hsubd]
        intro hc
        rcases hc with hc | hc
        · exact hc rfl
        · exact hc rfl)]
      rw [if_pos hvibe]
    show Except.ok _ = _
    have happly : applyOne (splitNl content)
        (touchedLines [⟨.insertAfter ⟨L, hsh⟩, stripNewLinePrefixes (splitDstLines txt)⟩])
        ⟨splitNl content, none, []⟩
        ⟨⟨.insertAfter ⟨L, hsh⟩, stripNewLinePrefixes (splitDstLines txt)⟩, 0, L, 1⟩ =
        ⟨listSplice (splitNl content) L 0 ((stripNewLinePrefixes (splitDstLines txt)).drop 1),
          some (L + 1), []⟩ := by
      unfold applyOne
      simp only []
      rw [hstrip]
      rw [if_neg (by
        intro he
        rw [List.isEmpty_iff] at he
        have h2l := congrArg List.length he
        rw [List.length_drop, List.length_nil] at h2l
        omega)]
      rfl
    rw [List.foldl_cons, List.foldl_nil, happly]
    show Except.ok _ = _
    unfold listSplice
    rfl
  · have hparse : parseHashlineEdit (.insert_after anchor "") =
        .ok (.insertAfter ⟨L, hsh⟩, "") := by
      unfold parseHashlineEdit
      simp only []
      rw [hp]
      rfl
    unfold applyHashlineEdits
    rw [if_neg (by simp)]
    rw [parseAll_single _ _ _ hparse, except_mapError_ok, except_bind_ok]
    simp only []
    have hvone : validateOne (splitNl content) (buildUniqueLineByHash (splitNl content))
        ⟨.insertAfter ⟨L, hsh⟩, stripNewLinePrefixes (splitDstLines "")⟩ =
        .error "Insert-after edit requires non-empty dst" := by
      unfold validateOne
      simp only []
      rfl
    have hvall : validateAll (splitNl content) (buildUniqueLineByHash (splitNl content))
        [⟨.insertAfter ⟨L, hsh⟩, stripNewLinePrefixes (splitDstLines "")⟩] =
        .error "Insert-after edit requires non-empty dst" := by
      unfold validateAll
      rw [hvone]
      rfl
    rw [hvall]
    rfl

/-- Witness for C7 amended: inserting `"aaa\nccc"` after the `"aaa"` line
drops the echoed `"aaa"` and inserts only `"ccc"`. -/
theorem c7_witness :
    ∃ w, applyHashlineEdits "aaa\nbbb" [.insert_after "1:5f" "aaa\nccc"] =
      .ok { content := joinNl (["aaa"] ++ ["ccc"] ++ ["bbb"])
            firstChangedLine := some 2
            warnings := w
            noopEdits := [] } := by
  obtain ⟨w, hw⟩ := (c7_insert_after_echo "aaa\nbbb" "1:5f" "aaa\nccc" 1 "5f"
    (by decide) (by decide) (by decide) (by decide) (by decide) (by decide)
    (by decide) (by decide)).1
  exact ⟨w, by rw [hw]; rfl⟩


/-! ## Claim C9 — single-line edit frame property -/

/-- C9 counterexample: the single-line merge expansion can delete a
neighbouring line.  Replacing the continuation line `"a &&"` with
`"a && b"` consumes line 2 (`"b"`), so the file shrinks from two lines to
one and line 2's fingerprint is not preserved. -/
theorem c9_counterexample :
    applyHashlineEdits "a &&\nb" [.set_line "1:2a" "a && b"] =
      .ok ⟨"a && b", some 1, [], []⟩ ∧
    (splitNl "a &&\nb").length = 2 ∧
    (splitNl "a && b").length = 1 := by
  exact ⟨by decide, by decide, by decide⟩

/-- C9 amended: for a single set_line edit whose anchor validates in
place, PROVIDED the single-line merge expansion does not fire, the result
is exactly the original lines with lines `1..L-1` and `L+1..n` untouched
and the resolved replacement spliced at line `L`; when the resolved
replacement differs from the current line the first changed line is `L`
and no no-op is recorded. -/
theorem c9_set_line_frame (content anchor txt : String) (L : Nat) (hsh : String)
    (dstL : List String)
    (hd : dstL = stripNewLinePrefixes (splitDstLines txt))
    (hp : parseLineRef anchor = .ok ⟨L, hsh⟩)
    (h1 : 1 ≤ L) (h2 : L ≤ (splitNl content).length)
    (hh : computeLineHash L ((splitNl content).getD (L - 1) "") = jsToLower hsh)
    (hmerge : maybeExpandSingleLineMerge (splitNl content)
      (touchedLines [⟨.single ⟨L, hsh⟩, dstL⟩]) L dstL = none)
    (hdiff : joinNl (((splitNl content).drop (L - 1)).take 1) ≠
      joinNl (resolveReplacement (splitNl content) L L dstL)) :
    ∃ w, applyHashlineEdits content [.set_line anchor txt] =
      .ok { content := joinNl ((splitNl content).take (L - 1) ++
              resolveReplacement (splitNl content) L L dstL ++
              (splitNl content).drop L)
            firstChangedLine := some L
            warnings := w
            noopEdits := [] } := by
  subst hd
  have hparse : parseHashlineEdit (.set_line anchor txt) =
      .ok (.single ⟨L, hsh⟩, txt) := by
    unfold parseHashlineEdit
    simp only []
    rw [hp]
    rfl
  have hval := valRef_exact (splitNl content) (buildUniqueLineByHash (splitNl content))
    ⟨L, hsh⟩ h1 h2 hh
  have hvo := validateOne_single (splitNl content)
    (buildUniqueLineByHash (splitNl content)) ⟨L, hsh⟩
    (stripNewLinePrefixes (splitDstLines txt)) hval
  obtain ⟨w, hw⟩ := applyHashlineEdits_single content (.set_line anchor txt)
    (.single ⟨L, hsh⟩) (.single ⟨L, hsh⟩) txt
    (stripNewLinePrefixes (splitDstLines txt)) rfl hparse hvo
  refine ⟨w, ?_⟩
  rw [hw]
  have hsort : sortEdits (dedupEdits
      [⟨.single ⟨L, hsh⟩, stripNewLinePrefixes (splitDstLines txt)⟩]) =
      [⟨⟨.single ⟨L, hsh⟩, stripNewLinePrefixes (splitDstLines txt)⟩, 0, L, 0⟩] := rfl
  rw [hsort]
  have happly : applyOne (splitNl content)
      (touchedLines [⟨.single ⟨L, hsh⟩, stripNewLinePrefixes (splitDstLines txt)⟩])
      ⟨splitNl content, none, []⟩
      ⟨⟨.single ⟨L, hsh⟩, stripNewLinePrefixes (splitDstLines txt)⟩, 0, L, 0⟩ =
      ⟨listSplice (splitNl content) (L - 1) 1
        (resolveReplacement (splitNl content) L L
          (stripNewLinePrefixes (splitDstLines txt))),
        some L, []⟩ := by
    unfold applyOne
    simp only []
    rw [hmerge]
    simp only []
    rw [if_neg hdiff]
    rfl
  rw [List.foldl_cons, List.foldl_nil, happly]
  show Except.ok _ = _
  unfold listSplice
  rw [Nat.sub_add_cancel h1]

/-- Witness for C9 amended: replacing `"foo"` with `"baz"` in
`"foo\nbar"` rewrites line 1 only and leaves `"bar"` untouched. -/
theorem c9_witness :
    ∃ w, applyHashlineEdits "foo\nbar" [.set_line "1:d9" "baz"] =
      .ok { content := joinNl ((splitNl "foo\nbar").take 0 ++
              resolveReplacement (splitNl "foo\nbar") 1 1
                (stripNewLinePrefixes (splitDstLines "baz")) ++
              (splitNl "foo\nbar").drop 1)
            firstChangedLine := some 1
            warnings := w
            noopEdits := [] } := by
  exact c9_set_line_frame "foo\nbar" "1:d9" "baz" 1 "d9"
    (stripNewLinePrefixes (splitDstLines "baz")) rfl
    (by decide) (by decide) (by decide) (by decide) (by decide) (by decide)


/-! ## Claim C8 — exact substring replace: ambiguity and replace-all -/

theorem splitGo_none : ∀ (fuel : Nat) (sep content : List Char), sep ≠ [] →
    indexOfSub content sep = none → ∃ l, splitGo fuel sep content = [l]
  | 0, _, content, _, _ => ⟨content, rfl⟩
  | fuel + 1, sep, content, hs, hn => by
    unfold splitGo
    rw [if_neg (by
      intro h
      cases sep with
      | nil => exact hs rfl
      | cons a t => exact Bool.noConfusion h)]
    have hpre : sep.isPrefixOf content = false := by
      cases hp : sep.isPrefixOf content
      · rfl
      · unfold indexOfSub at hn
        rw [if_pos hp] at hn
        exact Option.noConfusion hn
    rw [if_neg (by rw [hpre]; exact fun h => Bool.noConfusion h)]
    cases content with
    | nil => exact ⟨[], rfl⟩
    | cons c t =>
      have hnt : indexOfSub t sep = none := by
        unfold indexOfSub at hn
        rw [if_neg (by rw [hpre]; exact fun h => Bool.noConfusion h)] at hn
        replace hn : Option.map (fun x => x + 1) (indexOfSub t sep) = none := hn
        cases hit : indexOfSub t sep
        · rfl
        · rw [hit] at hn
          exact Option.noConfusion hn
      obtain ⟨l, hl⟩ := splitGo_none fuel sep t hs hnt
      simp only []
      rw [hl]
      exact ⟨c :: l, rfl⟩

theorem countOcc_pos_exists (content target : String) (hs : target.data ≠ [])
    (hocc : 1 ≤ countOcc content target) :
    ∃ idx, indexOfSub content.data target.data = some idx := by
  cases hit : indexOfSub content.data target.data with
  | some idx => exact ⟨idx, rfl⟩
  | none =>
    obtain ⟨l, hl⟩ := splitGo_none (content.data.length + 1) target.data content.data hs hit
    unfold countOcc countOccSub splitBySub at hocc
    rw [hl] at hocc
    simp at hocc

/-- When the exact target occurs at least twice, `findMatch` reports only
the occurrence census: count, 1-based line numbers and previews of the
first five occurrences, and no accepted match. -/
theorem findMatch_multi (content target : String) (opts : FindOptions)
    (h0 : target.data ≠ [])
    (hocc : 2 ≤ countOcc content target) :
    findMatch content target opts =
      { MatchOutcome.empty with
          occurrences := some (countOcc content target)
          occurrenceLines := some (occLoop content.data target.data (splitNl content) 5 0).1
          occurrencePreviews :=
            some (occLoop content.data target.data (splitNl content) 5 0).2 } := by
  unfold findMatch
  rw [if_neg (fun h : target.length = 0 => h0 (List.eq_nil_of_length_eq_zero h))]
  obtain ⟨idx, hidx⟩ := countOcc_pos_exists content target h0 (by omega)
  rw [hidx]
  simp only []
  rw [if_pos (show 1 < countOcc content target from hocc)]

/-- C8: in single-occurrence mode an exact target found two or more times
is rejected with the occurrence report (count, previews of the first five
occurrences, a "showing first 5 of N" note when more exist) and nothing is
replaced; in replace-all mode every exact occurrence is replaced by
split/join and the exact count is returned — in particular the spec's
cat/CAT example yields "CAT\ndog\nCAT\nbird\nCAT" with count 3. -/
theorem c8_substring_replace (content oldText newText : String) (fuzzy : Bool)
    (thr : Option ℚ)
    (hno : (normalizeToLF oldText).data ≠ []) :
    (2 ≤ countOcc (normalizeToLF content) (normalizeToLF oldText) →
      replaceText content oldText newText ⟨fuzzy, false, thr⟩ =
        .error ("Found " ++
          natStr (countOcc (normalizeToLF content) (normalizeToLF oldText)) ++
          " occurrences" ++
          (if 5 < countOcc (normalizeToLF content) (normalizeToLF oldText) then
            " (showing first 5 of " ++
              natStr (countOcc (normalizeToLF content) (normalizeToLF oldText)) ++ ")"
          else "") ++ ":\n\n" ++
          String.intercalate "\n\n"
            (occLoop (normalizeToLF content).data (normalizeToLF oldText).data
              (splitNl (normalizeToLF content)) 5 0).2 ++
          "\n\nAdd more context lines to disambiguate.")) ∧
    (1 ≤ countOcc (normalizeToLF content) (normalizeToLF oldText) →
      replaceText content oldText newText ⟨fuzzy, true, thr⟩ =
        .ok ⟨jsReplaceAll (normalizeToLF content) (normalizeToLF oldText)
          (normalizeToLF newText),
          countOcc (normalizeToLF content) (normalizeToLF oldText)⟩) ∧
    replaceText "cat\ndog\ncat\nbird\ncat" "cat" "CAT" ⟨false, true, none⟩ =
      .ok ⟨"CAT\ndog\nCAT\nbird\nCAT", 3⟩ := by
  have hlen : oldText.length ≠ 0 := by
    intro h
    apply hno
    have hd : oldText.data = [] := List.eq_nil_of_length_eq_zero h
    cases oldText with
    | mk d =>
      simp only [] at hd
      subst hd
      decide
  refine ⟨?_, ?_, by decide⟩
  · intro hocc
    unfold replaceText
    rw [if_neg hlen]
    simp only []
    rw [if_neg Bool.false_ne_true]
    rw [findMatch_multi (normalizeToLF content) (normalizeToLF oldText) _ hno hocc]
    simp only []
    rw [if_pos (show 1 < countOcc (normalizeToLF content) (normalizeToLF oldText) from hocc)]
    rfl
  · intro hocc
    unfold replaceText
    rw [if_neg hlen]
    simp only []
    rw [if_pos trivial]
    rw [if_pos (show 0 < countOcc (normalizeToLF content) (normalizeToLF oldText) from hocc)]

/-- Witness for C8: the ambiguous two-occurrence rejection (with its exact
rendered report) and the replace-all cat/CAT example. -/
theorem c8_witness :
    replaceText "cat\ndog\ncat" "cat" "feline" ⟨false, false, none⟩ =
      .error "Found 2 occurrences:\n\n  1 | cat\n  2 | dog\n  3 | cat\n\n  1 | cat\n  2 | dog\n  3 | cat\n\nAdd more context lines to disambiguate." ∧
    replaceText "cat\ndog\ncat\nbird\ncat" "cat" "CAT" ⟨false, true, none⟩ =
      .ok ⟨"CAT\ndog\nCAT\nbird\nCAT", 3⟩ := by
  constructor
  · exact ((c8_substring_replace "cat\ndog\ncat" "cat" "feline" false none
      (by decide)).1 (by decide)).trans (by decide)
  · exact (c8_substring_replace "cat\ndog\ncat\nbird\ncat" "cat" "CAT" false none
      (by decide)).2.2


/-! ## Claim C10 — not-found targets are never a matcher-level error -/

theorem foldl_inv {α β : Type} (f : β → α → β) (P : β → Prop)
    (hstep : ∀ st a, P st → P (f st a)) :
    ∀ (l : List α) (init : β), P init → P (l.foldl f init)
  | [], _, h => h
  | a :: t, init, h => foldl_inv f P hstep t (f init a) (hstep init a h)

/-- The above-threshold census of the fuzzy window scan counts the best
window whenever its confidence reaches the threshold. -/
theorem fuzzyCore_above_count (contentLines targetLines : List String) (offsets : List Nat)
    (θ : ℚ) (d : Bool) (b : FuzzyMatch)
    (hb : (findBestFuzzyMatchCore contentLines targetLines offsets θ d).best = some b)
    (hconf : θ ≤ b.confidence) :
    1 ≤ (findBestFuzzyMatchCore contentLines targetLines offsets θ d).aboveThresholdCount := by
  unfold findBestFuzzyMatchCore at hb ⊢
  simp only [] at hb ⊢
  refine foldl_inv _ (fun st : Option FuzzyMatch × ℚ × ℚ × Nat =>
      ∀ b2, st.1 = some b2 → θ ≤ b2.confidence → 1 ≤ st.2.2.2)
    ?_ _ _ ?_ b hb hconf
  · intro st start hP
    obtain ⟨best, bestScore, sb, count⟩ := st
    simp only []
    split
    · intro b2 hb2 hc2
      simp only [] at hb2 ⊢
      injection hb2 with hb2
      subst hb2
      simp only [] at hc2
      rw [if_pos hc2]
      omega
    · split
      · intro b2 hb2 hc2
        simp only [] at hb2 ⊢
        have h1 := hP b2 hb2 hc2
        simp only [] at h1
        split
        · omega
        · omega
      · intro b2 hb2 hc2
        simp only [] at hb2 ⊢
        have h1 := hP b2 hb2 hc2
        simp only [] at h1
        split
        · omega
        · omega
  · intro b2 hb2
    exact Option.noConfusion hb2

theorem findBestFuzzyMatch_shape (content target : String) (θ : ℚ) :
    findBestFuzzyMatch content target θ = ⟨none, 0, 0⟩ ∨
    ∃ d, findBestFuzzyMatch content target θ =
      findBestFuzzyMatchCore (splitNl content) (splitNl target)
        (computeLineOffsets (splitNl content)) θ d := by
  unfold findBestFuzzyMatch
  simp only []
  repeat' split
  all_goals first
  | (left; rfl)
  | (right; exact ⟨true, rfl⟩)
  | (right; exact ⟨false, rfl⟩)

theorem findBestFuzzyMatch_above_count (content target : String) (θ : ℚ) (b : FuzzyMatch)
    (hb : (findBestFuzzyMatch content target θ).best = some b) (hc : θ ≤ b.confidence) :
    1 ≤ (findBestFuzzyMatch content target θ).aboveThresholdCount := by
  rcases findBestFuzzyMatch_shape content target θ with h | ⟨d, h⟩
  · rw [h] at hb
    exact Option.noConfusion hb
  · rw [h] at hb ⊢
    exact fuzzyCore_above_count _ _ _ θ d b hb hc

/-- Every `findMatch` outcome with no accepted match either has no
closest candidate, or its closest candidate fails auto-acceptance for a
reason visible in the outcome: fuzzy disabled, confidence below the
threshold, or two or more above-threshold candidates. -/
theorem findMatch_cases (content target : String) (fuzzy : Bool) (θ : ℚ) :
    (findMatch content target ⟨fuzzy, some θ⟩).matched ≠ none ∨
    (findMatch content target ⟨fuzzy, some θ⟩).closest = none ∨
    (∃ best n, (findMatch content target ⟨fuzzy, some θ⟩).closest = some best ∧
      (findMatch content target ⟨fuzzy, some θ⟩).fuzzyMatches = some n ∧
      (fuzzy = false ∨ ¬ θ ≤ best.confidence ∨ 2 ≤ n)) := by
  unfold findMatch
  simp only [Option.getD_some]
  split
  · right
    left
    rfl
  · split
    · split
      · right
        left
        rfl
      · left
        intro hc
        exact Option.noConfusion hc
    · split
      · right
        left
        rfl
      · rename_i best hbest
        split
        · rename_i hcond
          split
          · left
            intro hc
            exact Option.noConfusion hc
          · split
            · left
              intro hc
              exact Option.noConfusion hc
            · rename_i hne1 hne2
              right
              right
              refine ⟨best, _, rfl, rfl, Or.inr (Or.inr ?_)⟩
              have h1 := findBestFuzzyMatch_above_count content target θ best hbest hcond.2
              omega
        · rename_i hcond
          right
          right
          refine ⟨best, _, rfl, rfl, ?_⟩
          by_cases hf : fuzzy = true
          · right
            left
            intro hθ
            exact hcond ⟨hf, hθ⟩
          · left
            exact Bool.eq_false_iff.mpr hf

/-- When `findMatch` accepts nothing, the replace-all loop's
closest-candidate fallback test is also false. -/
theorem findMatch_matched_none_closest (content target : String) (fuzzy : Bool) (θ : ℚ)
    (h : (findMatch content target ⟨fuzzy, some θ⟩).matched = none) :
    (fuzzy &&
      (match (findMatch content target ⟨fuzzy, some θ⟩).closest with
        | some c => decide (θ ≤ c.confidence)
        | none => false) &&
      (decide ((findMatch content target ⟨fuzzy, some θ⟩).fuzzyMatches = none) ||
        decide ((findMatch content target ⟨fuzzy, some θ⟩).fuzzyMatches.getD 0 ≤ 1))) =
      false := by
  rcases findMatch_cases content target fuzzy θ with h1 | h2 | ⟨best, n, hc, hf, hcase⟩
  · exact absurd h h1
  · rw [h2]
    simp
  · rw [hc, hf]
    simp only []
    rcases hcase with hf0 | hnc | hn2
    · subst hf0
      rfl
    · rw [decide_eq_false hnc]
      simp
    · have h3 : decide ((some n : Option ℕ) = none) = false := by simp
      have h4 : decide ((some n : Option ℕ).getD 0 ≤ 1) = false := by
        simp only [Option.getD_some]
        exact decide_eq_false (by omega)
      rw [h3, h4]
      simp

/-- `findMatch` reports an occurrence count only for the multi-occurrence
exact branch, and there it is exactly the split/join census. -/
theorem findMatch_occurrences (content target : String) (opts : FindOptions) :
    (findMatch content target opts).occurrences = none ∨
    (findMatch content target opts).occurrences = some (countOcc content target) := by
  unfold findMatch
  simp only []
  repeat' split
  all_goals simp [MatchOutcome.empty]

/-- The replace-all fuzzy loop exits immediately, touching nothing, when
`findMatch` accepts nothing. -/
theorem replaceAllFuzzyLoop_exit (fuzzy : Bool) (θ : ℚ) (no nn : String) (fuel : Nat)
    (content : String) (count : Nat)
    (hmat : (findMatch content no ⟨fuzzy, some θ⟩).matched = none) :
    replaceAllFuzzyLoop fuzzy θ no nn (fuel + 1) content count = (content, count) := by
  unfold replaceAllFuzzyLoop
  simp only []
  rw [hmat]
  simp only []
  rw [findMatch_matched_none_closest content no fuzzy θ hmat]
  rfl

/-- C10: when the normalized target (non-empty) has no exact occurrence
and fuzzy matching accepts no match, replaceText is a successful no-op —
normalized content back unchanged, count 0, no error — in both single
and replace-all modes. -/
theorem c10_not_found_noop (content oldText newText : String) (fuzzy : Bool)
    (thr : Option ℚ)
    (hlen : oldText.length ≠ 0)
    (hocc : countOcc (normalizeToLF content) (normalizeToLF oldText) = 0)
    (hmat : (findMatch (normalizeToLF content) (normalizeToLF oldText)
      ⟨fuzzy, some (thr.getD DEFAULT_FUZZY_THRESHOLD)⟩).matched = none) :
    replaceText content oldText newText ⟨fuzzy, false, thr⟩ =
      .ok ⟨normalizeToLF content, 0⟩ ∧
    replaceText content oldText newText ⟨fuzzy, true, thr⟩ =
      .ok ⟨normalizeToLF content, 0⟩ := by
  constructor
  · unfold replaceText
    rw [if_neg hlen]
    simp only []
    rw [if_neg Bool.false_ne_true]
    rcases findMatch_occurrences (normalizeToLF content) (normalizeToLF oldText)
        ⟨fuzzy, some (thr.getD DEFAULT_FUZZY_THRESHOLD)⟩ with hoc | hoc
    · rw [hoc]
      simp only []
      rw [hmat]
    · rw [hoc, hocc]
      simp only []
      rw [if_neg (by omega)]
      rw [hmat]
  · unfold replaceText
    rw [if_neg hlen]
    simp only []
    rw [if_pos trivial]
    rw [hocc]
    rw [if_neg (by omega)]
    rw [replaceAllFuzzyLoop_exit fuzzy (thr.getD DEFAULT_FUZZY_THRESHOLD)
      (normalizeToLF oldText) (normalizeToLF newText) (normalizeToLF content).length
      (normalizeToLF content) 0 hmat]


set_option maxRecDepth 10000 in
/-- Witness for C10: a target absent from `"alpha\nbeta"` is a successful
count-0 no-op in both modes, with fuzzy matching enabled. -/
theorem c10_witness :
    replaceText "alpha\nbeta" "zzzzzz" "gamma" ⟨true, false, none⟩ =
      .ok ⟨"alpha\nbeta", 0⟩ ∧
    replaceText "alpha\nbeta" "zzzzzz" "gamma" ⟨true, true, none⟩ =
      .ok ⟨"alpha\nbeta", 0⟩ := by
  have h := c10_not_found_noop "alpha\nbeta" "zzzzzz" "gamma" true none
    (by decide) (by decide) (by with_unfolding_all decide)
  exact ⟨h.1.trans (by decide), h.2.trans (by decide)⟩


/-! ## Claim C5 — self-replacement batches (supporting lemmas) -/

set_option maxRecDepth 10000 in
theorem jsToLower_toHex2 : ∀ k < 256, jsToLower (toHex2 k) = toHex2 k := by decide

/-- Fingerprints are lowercase already, so `toLowerCase` fixes them. -/
theorem jsToLower_computeLineHash (i : Nat) (l : String) :
    jsToLower (computeLineHash i l) = computeLineHash i l := by
  unfold computeLineHash
  exact jsToLower_toHex2 _ (Nat.mod_lt _ (by norm_num [HASH_MOD]))

theorem decDigitChar_toNat : ∀ m, m < 10 → (decDigitChar m).toNat = 48 + m := by decide

theorem decDigitChar_digit : ∀ m, m < 10 → isAsciiDigit (decDigitChar m) = true := by decide

theorem natDigitsGo_digits : ∀ (fuel n : Nat), ∀ c ∈ natDigitsGo fuel n,
    isAsciiDigit c = true
  | 0, n, c, h => absurd h (List.not_mem_nil c)
  | fuel + 1, n, c, h => by
    unfold natDigitsGo at h
    by_cases hn : n < 10
    · rw [if_pos hn] at h
      rw [List.mem_singleton.mp h]
      exact decDigitChar_digit n hn
    · rw [if_neg hn] at h
      rcases List.mem_append.mp h with h1 | h1
      · exact natDigitsGo_digits fuel (n / 10) c h1
      · rw [List.mem_singleton.mp h1]
        exact decDigitChar_digit _ (Nat.mod_lt _ (by omega))

theorem digitsToNat_natDigitsGo : ∀ (fuel n : Nat), n < fuel →
    digitsToNat (natDigitsGo fuel n) = n
  | 0, _, h => absurd h (by omega)
  | fuel + 1, n, h => by
    unfold natDigitsGo
    by_cases hn : n < 10
    · rw [if_pos hn]
      show List.foldl _ 0 [decDigitChar n] = n
      rw [List.foldl_cons, List.foldl_nil]
      rw [decDigitChar_toNat n hn]
      omega
    · rw [if_neg hn]
      unfold digitsToNat
      rw [List.foldl_append]
      have ih := digitsToNat_natDigitsGo fuel (n / 10) (by omega)
      unfold digitsToNat at ih
      rw [ih]
      rw [List.foldl_cons, List.foldl_nil]
      rw [decDigitChar_toNat _ (Nat.mod_lt _ (by omega))]
      omega

theorem natStr_inj {a b : Nat} (h : natStr a = natStr b) : a = b := by
  unfold natStr at h
  injection h with h2
  have ha := digitsToNat_natDigitsGo (a + 1) a (by omega)
  have hb := digitsToNat_natDigitsGo (b + 1) b (by omega)
  unfold natToDigits at h2
  rw [h2] at ha
  rw [ha] at hb
  exact hb

theorem digits_pipe_inj : ∀ (as bs xs ys : List Char),
    (∀ c ∈ as, isAsciiDigit c = true) → (∀ c ∈ bs, isAsciiDigit c = true) →
    as ++ '|' :: xs = bs ++ '|' :: ys → as = bs
  | [], [], _, _, _, _, _ => rfl
  | [], b :: bs, xs, ys, _, hb, h => by
    injection h with h1 h2
    have h3 := hb b (List.mem_cons_self b bs)
    rw [← h1] at h3
    exact absurd h3 (by decide)
  | a :: as, [], xs, ys, ha, _, h => by
    injection h with h1 h2
    have h3 := ha a (List.mem_cons_self a as)
    rw [h1] at h3
    exact absurd h3 (by decide)
  | a :: as, b :: bs, xs, ys, ha, hb, h => by
    injection h with h1 h2
    rw [h1, digits_pipe_inj as bs xs ys (fun c hc => ha c (List.mem_cons_of_mem a hc))
      (fun c hc => hb c (List.mem_cons_of_mem b hc)) h2]

/-- Distinct line numbers give distinct dedup keys for single-line edits. -/
theorem editDstKey_single_inj (r1 r2 : LineRef) (d1 d2 : List String)
    (h : editDstKey ⟨.single r1, d1⟩ = editDstKey ⟨.single r2, d2⟩) : r1.line = r2.line := by
  unfold editDstKey editLineKey at h
  simp only [] at h
  have hd := congrArg String.data h
  simp only [String.data_append, List.append_assoc, List.cons_append, List.nil_append,
    List.singleton_append] at hd
  injection hd with k1 hd
  injection hd with k2 hd
  have hdig := digits_pipe_inj _ _ _ _
    (fun c hc => natDigitsGo_digits _ _ c hc)
    (fun c hc => natDigitsGo_digits _ _ c hc) hd
  exact natStr_inj (congrArg String.mk hdig)

theorem splitNlChars_no_nl : ∀ (cs part : List Char), part ∈ splitNlChars cs →
    ∀ c ∈ part, c ≠ '\n'
  | [], part, h, c, hc => by
    replace h : part ∈ [([] : List Char)] := h
    rw [List.mem_singleton.mp h] at hc
    exact absurd hc (List.not_mem_nil c)
  | ch :: t, part, h, c, hc => by
    unfold splitNlChars at h
    by_cases hch : ch = '\n'
    · rw [if_pos hch] at h
      rcases List.mem_cons.mp h with h1 | h1
      · rw [h1] at hc
        exact absurd hc (List.not_mem_nil c)
      · exact splitNlChars_no_nl t part h1 c hc
    · rw [if_neg hch] at h
      cases hsp : splitNlChars t with
      | nil =>
        rw [hsp] at h
        rw [List.mem_singleton.mp h] at hc
        rw [List.mem_singleton.mp hc]
        exact hch
      | cons hd r =>
        rw [hsp] at h
        rcases List.mem_cons.mp h with h1 | h1
        · rw [h1] at hc
          rcases List.mem_cons.mp hc with h2 | h2
          · rw [h2]
            exact hch
          · exact splitNlChars_no_nl t hd (by rw [hsp]; exact List.mem_cons_self hd r) c h2
        · exact splitNlChars_no_nl t part
            (by rw [hsp]; exact List.mem_cons_of_mem hd h1) c hc

/-- Lines produced by the newline split never contain a newline. -/
theorem splitNl_no_nl (s : String) : ∀ l ∈ splitNl s, ∀ c ∈ l.data, c ≠ '\n' := by
  intro l hl c hc
  unfold splitNl at hl
  obtain ⟨part, hpart, heq⟩ := List.mem_map.mp hl
  rw [← heq] at hc
  exact splitNlChars_no_nl s.data part hpart c hc

theorem splitNlChars_eq_self : ∀ (cs : List Char), (∀ c ∈ cs, c ≠ '\n') →
    splitNlChars cs = [cs]
  | [], _ => rfl
  | ch :: t, h => by
    unfold splitNlChars
    rw [if_neg (h ch (List.mem_cons_self ch t))]
    rw [splitNlChars_eq_self t (fun c hc => h c (List.mem_cons_of_mem ch hc))]

theorem splitNl_single (l : String) (h : ∀ c ∈ l.data, c ≠ '\n') : splitNl l = [l] := by
  unfold splitNl
  rw [splitNlChars_eq_self l.data h]
  rfl


theorem stripNewLinePrefixes_id (lines : List String)
    (h1 : ∀ l ∈ lines, testHashlinePrefixRe l = false)
    (h2 : ∀ l ∈ lines, testDiffPlusRe l = false) :
    stripNewLinePrefixes lines = lines := by
  unfold stripNewLinePrefixes
  simp only []
  have hh : (lines.filter (fun l => decide (l.length ≠ 0))).filter testHashlinePrefixRe
      = [] := by
    rw [List.filter_eq_nil]
    intro a ha
    rw [h1 a (List.mem_of_mem_filter ha)]
    exact fun hc => Bool.noConfusion hc
  have hd : (lines.filter (fun l => decide (l.length ≠ 0))).filter testDiffPlusRe
      = [] := by
    rw [List.filter_eq_nil]
    intro a ha
    rw [h2 a (List.mem_of_mem_filter ha)]
    exact fun hc => Bool.noConfusion hc
  rw [hh, hd]
  split
  · rfl
  · rw [if_pos ?_]
    constructor
    · intro hc
      exact absurd hc.1 (by simp)
    · intro hc
      exact absurd hc.2.1 (by simp)

/-- The resolved replacement for a clean self-edit (no hashline or
diff-plus prefix, no newline) is the line itself (or nothing, for the
empty line). -/
theorem dstFor_clean (l : String) (hnl : ∀ c ∈ l.data, c ≠ '\n')
    (h1 : testHashlinePrefixRe l = false) (h2 : testDiffPlusRe l = false) :
    stripNewLinePrefixes (splitDstLines l) = if l = "" then [] else [l] := by
  by_cases hl : l = ""
  · rw [if_pos hl]
    rw [hl]
    rfl
  · rw [if_neg hl]
    unfold splitDstLines
    rw [if_neg hl]
    rw [splitNl_single l hnl]
    exact stripNewLinePrefixes_id [l]
      (fun x hx => by rw [List.mem_singleton.mp hx]; exact h1)
      (fun x hx => by rw [List.mem_singleton.mp hx]; exact h2)

theorem restoreLeadingIndent_self (l : String) : restoreLeadingIndent l l = l := by
  unfold restoreLeadingIndent
  split
  · rfl
  · simp only []
    split
    · rfl
    · rename_i h1 h2
      rw [if_pos (by omega)]

theorem drop_take_one : ∀ (l : List String) (i : Nat), i < l.length →
    (l.drop i).take 1 = [l.getD i ""]
  | [], i, h => absurd h (by simp)
  | a :: t, 0, _ => rfl
  | a :: t, i + 1, h => drop_take_one t i (by simpa using h)

theorem getD_mem_of_lt : ∀ (l : List String) (i : Nat), i < l.length → l.getD i "" ∈ l
  | [], i, h => absurd h (by simp)
  | a :: t, 0, _ => List.mem_cons_self a t
  | a :: t, i + 1, h =>
    List.mem_cons_of_mem a (getD_mem_of_lt t i (by simpa using h))

/-- Resolution pipeline identity for a clean single-line self-edit. -/
theorem resolveReplacement_self (fileLines : List String) (i : Nat)
    (hi : i < fileLines.length)
    (hnl : ∀ c ∈ (fileLines.getD i "").data, c ≠ '\n')
    (h1 : testHashlinePrefixRe (fileLines.getD i "") = false)
    (h2 : testDiffPlusRe (fileLines.getD i "") = false)
    (h3 : containsConfusableHyphen (fileLines.getD i "") = false) :
    joinNl ((fileLines.drop (i + 1 - 1)).take 1) =
      joinNl (resolveReplacement fileLines (i + 1) (i + 1)
        (stripNewLinePrefixes (splitDstLines (fileLines.getD i "")))) := by
  rw [dstFor_clean _ hnl h1 h2]
  unfold resolveReplacement
  simp only []
  have horig : (fileLines.drop (i + 1 - 1)).take (i + 1 + 1 - (i + 1)) =
      [fileLines.getD i ""] := by
    rw [show i + 1 - 1 = i from by omega, show i + 1 + 1 - (i + 1) = 1 from by omega]
    exact drop_take_one fileLines i hi
  rw [horig]
  by_cases hl : fileLines.getD i "" = ""
  · rw [if_pos hl]
    have hstrip : stripRangeBoundaryEcho fileLines (i + 1) (i + 1) ([] : List String)
        = [] := by
      unfold stripRangeBoundaryEcho
      rw [if_pos (Or.inl (by simp))]
    rw [hstrip]
    have hwrap : restoreOldWrappedLines [fileLines.getD i ""] ([] : List String) = [] := by
      unfold restoreOldWrappedLines
      rw [if_pos (Or.inr (by simp))]
    rw [hwrap]
    have hpair : restoreIndentForPairedReplacement [fileLines.getD i ""]
        ([] : List String) = [] := by
      unfold restoreIndentForPairedReplacement
      rw [if_pos (by simp)]
    rw [hpair]
    rw [if_neg (by
      intro hc
      rcases List.any_eq_true.mp hc.2 with ⟨x, hx, hpx⟩
      rw [List.mem_singleton.mp hx] at hpx
      rw [h3] at hpx
      exact Bool.noConfusion hpx)]
    rw [show i + 1 - 1 = i from by omega, drop_take_one fileLines i hi, hl]
    decide
  · rw [if_neg hl]
    have hstrip : stripRangeBoundaryEcho fileLines (i + 1) (i + 1)
        [fileLines.getD i ""] = [fileLines.getD i ""] := by
      unfold stripRangeBoundaryEcho
      rw [if_pos (Or.inl (by simp))]
    rw [hstrip]
    have hwrap : restoreOldWrappedLines [fileLines.getD i ""]
        [fileLines.getD i ""] = [fileLines.getD i ""] := by
      unfold restoreOldWrappedLines
      rw [if_pos (Or.inr (by simp))]
    rw [hwrap]
    have hpair : restoreIndentForPairedReplacement [fileLines.getD i ""]
        [fileLines.getD i ""] = [fileLines.getD i ""] := by
      unfold restoreIndentForPairedReplacement
      rw [if_neg (by simp)]
      show [restoreLeadingIndent (fileLines.getD i "") (fileLines.getD i "")] = _
      rw [restoreLeadingIndent_self]
    rw [hpair]
    rw [if_neg (by
      intro hc
      rcases List.any_eq_true.mp hc.2 with ⟨x, hx, hpx⟩
      rw [List.mem_singleton.mp hx] at hpx
      rw [h3] at hpx
      exact Bool.noConfusion hpx)]
    rw [show i + 1 - 1 = i from by omega, drop_take_one fileLines i hi]


/-- The parsed form of the self-replacement batch, lines numbered from
`base + 1`. -/
def c5Parsed (base : Nat) : List String → List ParsedEdit
  | [] => []
  | l :: t => ⟨.single ⟨base + 1, computeLineHash (base + 1) l⟩,
      stripNewLinePrefixes (splitDstLines l)⟩ :: c5Parsed (base + 1) t

theorem c5Parsed_length : ∀ (base : Nat) (ls : List String),
    (c5Parsed base ls).length = ls.length
  | _, [] => rfl
  | base, l :: t => by
    show (c5Parsed base (l :: t)).length = t.length + 1
    unfold c5Parsed
    rw [List.length_cons, c5Parsed_length (base + 1) t]

theorem c5Parsed_mem : ∀ (base : Nat) (ls : List String) (p : ParsedEdit),
    p ∈ c5Parsed base ls → ∃ i, i < ls.length ∧
      p = ⟨.single ⟨base + i + 1, computeLineHash (base + i + 1) (ls.getD i "")⟩,
        stripNewLinePrefixes (splitDstLines (ls.getD i ""))⟩
  | base, [], p, h => absurd h (List.not_mem_nil p)
  | base, l :: t, p, h => by
    rcases List.mem_cons.mp h with h1 | h1
    · exact ⟨0, by simp, by rw [h1]; rfl⟩
    · obtain ⟨i, hi, hp⟩ := c5Parsed_mem (base + 1) t p h1
      refine ⟨i + 1, by simpa using hi, ?_⟩
      rw [hp]
      have he : base + 1 + i + 1 = base + (i + 1) + 1 := by omega
      rw [he]
      rfl

theorem c5Parsed_pairwise_keys : ∀ (base : Nat) (ls : List String),
    List.Pairwise (fun p q => editDstKey p ≠ editDstKey q) (c5Parsed base ls)
  | _, [] => List.Pairwise.nil
  | base, l :: t => by
    refine List.Pairwise.cons ?_ (c5Parsed_pairwise_keys (base + 1) t)
    intro q hq hkey
    obtain ⟨i, hi, hqe⟩ := c5Parsed_mem (base + 1) t q hq
    rw [hqe] at hkey
    have h2 := editDstKey_single_inj _ _ _ _ hkey
    simp only [] at h2
    omega

theorem touched_c5_cons (base : Nat) (l : String) (t : List String) :
    touchedLines (c5Parsed base (l :: t)) =
      (base + 1) :: touchedLines (c5Parsed (base + 1) t) := by
  show touchedLines (⟨.single ⟨base + 1, computeLineHash (base + 1) l⟩,
      stripNewLinePrefixes (splitDstLines l)⟩ :: c5Parsed (base + 1) t) = _
  unfold touchedLines
  rw [List.flatMap_cons]
  rfl

theorem c5Parsed_touched : ∀ (base : Nat) (ls : List String) (j : Nat),
    base + 1 ≤ j → j ≤ base + ls.length →
    (touchedLines (c5Parsed base ls)).contains j = true
  | base, [], j, h1, h2 => by
    simp at h2
    omega
  | base, l :: t, j, h1, h2 => by
    by_cases hj : j = base + 1
    · rw [touched_c5_cons, List.contains_cons, hj]
      simp
    · rw [touched_c5_cons, List.contains_cons]
      rw [beq_eq_false_iff_ne.mpr hj, Bool.false_or]
      refine c5Parsed_touched (base + 1) t j (by omega) ?_
      rw [List.length_cons] at h2
      omega

theorem validateAll_noMM : ∀ (f : List String) (u : List (String × Nat))
    (ps : List ParsedEdit), (∀ p ∈ ps, validateOne f u p = .ok (p, [])) →
    validateAll f u ps = .ok (ps, [])
  | _, _, [], _ => rfl
  | f, u, p :: rest, h => by
    unfold validateAll
    rw [h p (List.mem_cons_self p rest)]
    rw [validateAll_noMM f u rest (fun q hq => h q (List.mem_cons_of_mem p hq))]
    rfl

theorem dedupGo_id : ∀ (seen : List String) (ps : List ParsedEdit),
    (∀ p ∈ ps, seen.contains (editDstKey p) = false) →
    List.Pairwise (fun p q => editDstKey p ≠ editDstKey q) ps →
    dedupGo seen ps = ps
  | _, [], _, _ => rfl
  | seen, p :: rest, hs, hp => by
    unfold dedupGo
    simp only []
    rw [hs p (List.mem_cons_self p rest)]
    rw [if_neg Bool.false_ne_true]
    cases hp with
    | cons hhead htail =>
      rw [dedupGo_id (editDstKey p :: seen) rest (fun q hq => by
        rw [List.contains_cons]
        rw [beq_eq_false_iff_ne.mpr (fun he => hhead q hq he.symm), Bool.false_or]
        exact hs q (List.mem_cons_of_mem p hq)) htail]

theorem parseAll_c5 : ∀ (ans ls : List String) (base : Nat),
    ans.length = ls.length →
    (∀ i, i < ls.length → parseLineRef (ans.getD i "") =
      .ok ⟨base + i + 1, computeLineHash (base + i + 1) (ls.getD i "")⟩) →
    parseAllEdits (List.zipWith HashlineEdit.set_line ans ls) = .ok (c5Parsed base ls)
  | [], [], _, _, _ => rfl
  | [], l :: t, base, hl, _ => by simp at hl
  | a :: ans, [], base, hl, _ => by simp at hl
  | a :: ans, l :: t, base, hl, hp => by
    show parseAllEdits (HashlineEdit.set_line a l ::
      List.zipWith HashlineEdit.set_line ans t) = _
    have hph : parseHashlineEdit (HashlineEdit.set_line a l) =
        .ok (.single ⟨base + 1, computeLineHash (base + 1) l⟩, l) := by
      unfold parseHashlineEdit
      simp only []
      have h0 := hp 0 (by simp)
      rw [List.getD_cons_zero, List.getD_cons_zero] at h0
      rw [show base + 0 + 1 = base + 1 from by omega] at h0
      rw [h0]
      rfl
    have hrest : parseAllEdits (List.zipWith HashlineEdit.set_line ans t) =
        .ok (c5Parsed (base + 1) t) := by
      refine parseAll_c5 ans t (base + 1) (by simpa using hl) ?_
      intro i hi
      have h1 := hp (i + 1) (by simpa using hi)
      rw [List.getD_cons_succ, List.getD_cons_succ] at h1
      rw [show base + (i + 1) + 1 = base + 1 + i + 1 from by omega] at h1
      exact h1
    unfold parseAllEdits at hrest ⊢
    rw [List.mapM_cons, hph]
    rw [hrest]
    rfl

theorem zip_self_filter_ne : ∀ (l : List String),
    (l.zip l).filter (fun p => decide (p.1 ≠ p.2)) = []
  | [] => rfl
  | a :: t => by
    rw [List.zip_cons_cons, List.filter_cons]
    rw [if_neg (by simp)]
    exact zip_self_filter_ne t

theorem enumFrom_snd_mem {α : Type} : ∀ (n : Nat) (l : List α) (p : Nat × α),
    p ∈ List.enumFrom n l → p.2 ∈ l
  | _, [], p, h => absurd h (List.not_mem_nil p)
  | n, a :: t, p, h => by
    replace h : p ∈ (n, a) :: List.enumFrom (n + 1) t := h
    rcases List.mem_cons.mp h with h1 | h1
    · rw [h1]
      exact List.mem_cons_self a t
    · exact List.mem_cons_of_mem a (enumFrom_snd_mem (n + 1) t p h1)

theorem annotateEdits_mem (ps : List ParsedEdit) (a : AnnotatedEdit)
    (h : a ∈ annotateEdits ps) : a.edit ∈ ps := by
  unfold annotateEdits at h
  obtain ⟨pe, hpe, heq⟩ := List.mem_map.mp h
  have hmem : pe.2 ∈ ps := enumFrom_snd_mem 0 ps pe hpe
  rw [← heq]
  cases hsp : pe.2.spec <;> simp only [hsp] <;> exact hmem

/-- A single-line merge never fires when both neighbours of the target
line are explicitly anchored by the batch (or absent). -/
theorem merge_none_touched (fileLines : List String) (touched : List Nat) (L : Nat)
    (dst : List String)
    (ht : ∀ j, 1 ≤ j → j ≤ fileLines.length → touched.contains j = true) :
    maybeExpandSingleLineMerge fileLines touched L dst = none := by
  unfold maybeExpandSingleLineMerge
  split
  · rfl
  · split
    · rfl
    · simp only []
      split
      · rfl
      · split
        · rfl
        · rename_i hrange hcanon horig
          split
          · rename_i r heq
            split at heq
            · rename_i hC
              exact (hC.2.2 (ht (L + 1) (by omega) (by
                have h2 := hC.2.1
                omega))).elim
            · exact Option.noConfusion heq
          · split
            · rename_i hC2
              exact (hC2.2 (ht (L - 1) (by
                have h2 := hC2.1
                omega) (by omega))).elim
            · rfl


/-- One apply step of a validated single-line self-edit only records a
no-op. -/
theorem applyOne_noop (fileLines : List String) (touched : List Nat) (st : ApplyState)
    (ref : LineRef) (dst : List String) (idx sl prec : Nat)
    (hfl : st.fileLines = fileLines)
    (ht : ∀ j, 1 ≤ j → j ≤ fileLines.length → touched.contains j = true)
    (hres : joinNl ((fileLines.drop (ref.line - 1)).take 1) =
      joinNl (resolveReplacement fileLines ref.line ref.line dst)) :
    applyOne fileLines touched st ⟨⟨.single ref, dst⟩, idx, sl, prec⟩ =
      { st with noopEdits := st.noopEdits ++
          [⟨idx, natStr ref.line ++ ":" ++ ref.hash,
            joinNl ((fileLines.drop (ref.line - 1)).take 1)⟩] } := by
  unfold applyOne
  simp only []
  rw [hfl]
  rw [merge_none_touched fileLines touched ref.line dst ht]
  simp only []
  rw [if_pos hres]

theorem foldl_noops (fileLines : List String) (touched : List Nat)
    (ht : ∀ j, 1 ≤ j → j ≤ fileLines.length → touched.contains j = true) :
    ∀ (as : List AnnotatedEdit) (ns : List NoopEdit),
    (∀ a ∈ as, ∃ ref dst, a.edit = ⟨.single ref, dst⟩ ∧
      joinNl ((fileLines.drop (ref.line - 1)).take 1) =
        joinNl (resolveReplacement fileLines ref.line ref.line dst)) →
    ∃ ms : List NoopEdit,
      as.foldl (applyOne fileLines touched) ⟨fileLines, none, ns⟩ =
        ⟨fileLines, none, ns ++ ms⟩ ∧ ms.length = as.length
  | [], ns, _ => ⟨[], by rw [List.foldl_nil, List.append_nil], rfl⟩
  | a :: t, ns, h => by
    obtain ⟨ref, dst, hedit, hres⟩ := h a (List.mem_cons_self a t)
    obtain ⟨ae, ai, asl, ap⟩ := a
    simp only [] at hedit
    subst hedit
    rw [List.foldl_cons]
    rw [applyOne_noop fileLines touched ⟨fileLines, none, ns⟩ ref dst ai asl ap rfl
      ht hres]
    simp only []
    obtain ⟨ms, hms, hlen⟩ := foldl_noops fileLines touched ht t
      (ns ++ [⟨ai, natStr ref.line ++ ":" ++ ref.hash,
        joinNl ((fileLines.drop (ref.line - 1)).take 1)⟩])
      (fun b hb => h b (List.mem_cons_of_mem _ hb))
    refine ⟨⟨ai, natStr ref.line ++ ":" ++ ref.hash,
      joinNl ((fileLines.drop (ref.line - 1)).take 1)⟩ :: ms, ?_, ?_⟩
    · rw [hms]
      rw [List.append_assoc]
      rfl
    · rw [List.length_cons, hlen]
      rfl


/-- C5 counterexample: the self-replacement batch on the one-line file
`"+x"` is NOT a no-op — the diff-plus prefix heuristic strips the leading
`+` from the replacement, so the batch rewrites the file to `"x"` and the
handler reports success instead of the no-op batch error. -/
theorem c5_counterexample :
    computeLineHash 1 "+x" = "6b" ∧
    applyHashlineEdits "+x" [.set_line "1:6b" "+x"] = .ok ⟨"x", some 1, [], []⟩ ∧
    editFileAnchorBatch "f.txt" "+x" [.set_line "1:6b" "+x"] = .ok "x" := by
  exact ⟨by decide, by decide, by decide⟩

/-- C5 amended: on a file none of whose lines carries a hashline-anchor
prefix, a diff `+` prefix, or a confusable hyphen, the batch that
replaces every line `i` with itself (anchored at its true fingerprint)
validates with no mismatch, records every operation as a no-op, leaves
the content byte-identical, and is promoted by the edit_file handler to
the no-op batch error instead of a silent success. -/
theorem c5_selfedit_noop_batch (filePath content : String) (anchors : List String)
    (hlen : anchors.length = (splitNl content).length)
    (hparse : ∀ i, i < (splitNl content).length →
      parseLineRef (anchors.getD i "") =
        .ok ⟨i + 1, computeLineHash (i + 1) ((splitNl content).getD i "")⟩)
    (hclean : ∀ l ∈ splitNl content, testHashlinePrefixRe l = false ∧
      testDiffPlusRe l = false ∧ containsConfusableHyphen l = false)
    (hjoin : joinNl (splitNl content) = content) :
    ∃ noops : List NoopEdit,
      applyHashlineEdits content
          (List.zipWith HashlineEdit.set_line anchors (splitNl content)) =
        .ok ⟨content, none, [], noops⟩ ∧
      noops.length = anchors.length ∧
      editFileAnchorBatch filePath content
          (List.zipWith HashlineEdit.set_line anchors (splitNl content)) =
        .error (.thrown (noopDiagnostic filePath noops)) := by
  by_cases hA : anchors = []
  · subst hA
    have happ : applyHashlineEdits content
        (List.zipWith HashlineEdit.set_line [] (splitNl content)) =
        .ok ⟨content, none, [], []⟩ := by
      show applyHashlineEdits content [] = _
      unfold applyHashlineEdits
      rw [if_pos (show ([] : List HashlineEdit).isEmpty = true from rfl)]
    refine ⟨[], happ, rfl, ?_⟩
    unfold editFileAnchorBatch
    rw [happ, except_bind_ok]
    rw [if_pos rfl]
  · obtain ⟨a, ans, hA2⟩ : ∃ a ans, anchors = a :: ans := by
      cases anchors with
      | nil => exact absurd rfl hA
      | cons a ans => exact ⟨a, ans, rfl⟩
    obtain ⟨l0, lt, hL⟩ : ∃ l0 lt, splitNl content = l0 :: lt := by
      cases hsp : splitNl content with
      | nil =>
        rw [hsp] at hlen
        rw [hA2] at hlen
        simp at hlen
      | cons l0 lt => exact ⟨l0, lt, rfl⟩
    have hne : ¬ ((List.zipWith HashlineEdit.set_line anchors
        (splitNl content)).isEmpty = true) := by
      rw [hA2, hL, List.zipWith_cons_cons]
      exact fun hc => Bool.noConfusion hc
    have hp0 : ∀ i, i < (splitNl content).length →
        parseLineRef (anchors.getD i "") =
          .ok ⟨0 + i + 1, computeLineHash (0 + i + 1) ((splitNl content).getD i "")⟩ := by
      intro i hi
      rw [show 0 + i + 1 = i + 1 from by omega]
      exact hparse i hi
    have hval : ∀ p ∈ c5Parsed 0 (splitNl content),
        validateOne (splitNl content) (buildUniqueLineByHash (splitNl content)) p =
          .ok (p, []) := by
      intro p hp
      obtain ⟨i, hi, hpe⟩ := c5Parsed_mem 0 (splitNl content) p hp
      subst hpe
      refine validateOne_single _ _ _ _ ?_
      refine valRef_exact _ _ _ (by show 1 ≤ 0 + i + 1; omega)
        (by show 0 + i + 1 ≤ (splitNl content).length; omega) ?_
      show computeLineHash (0 + i + 1) ((splitNl content).getD (0 + i + 1 - 1) "") =
        jsToLower (computeLineHash (0 + i + 1) ((splitNl content).getD i ""))
      rw [jsToLower_computeLineHash]
      rw [show 0 + i + 1 - 1 = i from by omega]
    have hded : dedupEdits (c5Parsed 0 (splitNl content)) = c5Parsed 0 (splitNl content) := by
      unfold dedupEdits
      exact dedupGo_id [] _ (fun p _ => rfl) (c5Parsed_pairwise_keys 0 (splitNl content))
    have ht : ∀ j, 1 ≤ j → j ≤ (splitNl content).length →
        (touchedLines (c5Parsed 0 (splitNl content))).contains j = true := by
      intro j h1 h2
      exact c5Parsed_touched 0 (splitNl content) j (by omega) (by omega)
    have has : ∀ b ∈ sortEdits (c5Parsed 0 (splitNl content)), ∃ ref dst,
        b.edit = ⟨.single ref, dst⟩ ∧
        joinNl (((splitNl content).drop (ref.line - 1)).take 1) =
          joinNl (resolveReplacement (splitNl content) ref.line ref.line dst) := by
      intro b hb
      have hmem : b ∈ annotateEdits (c5Parsed 0 (splitNl content)) :=
        (List.perm_insertionSort editLE
          (annotateEdits (c5Parsed 0 (splitNl content)))).mem_iff.mp hb
      have hedit := annotateEdits_mem _ _ hmem
      obtain ⟨i, hi, hp⟩ := c5Parsed_mem 0 (splitNl content) b.edit hedit
      refine ⟨⟨0 + i + 1, computeLineHash (0 + i + 1) ((splitNl content).getD i "")⟩,
        stripNewLinePrefixes (splitDstLines ((splitNl content).getD i "")), hp, ?_⟩
      show joinNl (((splitNl content).drop (0 + i + 1 - 1)).take 1) =
        joinNl (resolveReplacement (splitNl content) (0 + i + 1) (0 + i + 1)
          (stripNewLinePrefixes (splitDstLines ((splitNl content).getD i ""))))
      rw [Nat.zero_add]
      have hcl := hclean ((splitNl content).getD i "")
        (getD_mem_of_lt (splitNl content) i hi)
      have hnl := splitNl_no_nl content ((splitNl content).getD i "")
        (getD_mem_of_lt (splitNl content) i hi)
      exact resolveReplacement_self (splitNl content) i hi hnl hcl.1 hcl.2.1 hcl.2.2
    obtain ⟨ms, hms, hmslen⟩ := foldl_noops (splitNl content)
      (touchedLines (c5Parsed 0 (splitNl content))) ht
      (sortEdits (c5Parsed 0 (splitNl content))) [] has
    have happ : applyHashlineEdits content
        (List.zipWith HashlineEdit.set_line anchors (splitNl content)) =
        .ok ⟨content, none, [], ms⟩ := by
      unfold applyHashlineEdits
      rw [if_neg hne]
      rw [parseAll_c5 anchors (splitNl content) 0 hlen hp0, except_mapError_ok,
        except_bind_ok]
      simp only []
      rw [validateAll_noMM (splitNl content) (buildUniqueLineByHash (splitNl content))
        (c5Parsed 0 (splitNl content)) hval, except_mapError_ok, except_bind_ok]
      simp only []
      rw [if_pos (show List.isEmpty ([] : List HashMismatch) = true from rfl)]
      rw [hded]
      rw [hms]
      simp only []
      rw [if_pos (Nat.le_refl (splitNl content).length)]
      rw [Nat.sub_self]
      rw [zip_self_filter_ne]
      simp only [List.length_nil]
      rw [if_neg (by omega)]
      rw [hjoin]
      rfl
    refine ⟨ms, happ, ?_, ?_⟩
    · rw [hmslen]
      have h1 : (sortEdits (c5Parsed 0 (splitNl content))).length =
          (annotateEdits (c5Parsed 0 (splitNl content))).length :=
        (List.perm_insertionSort editLE _).length_eq
      rw [h1]
      unfold annotateEdits
      rw [List.length_map, List.enum_length, c5Parsed_length]
      exact hlen.symm
    · unfold editFileAnchorBatch
      rw [happ, except_bind_ok]
      rw [if_pos rfl]

/-- Witness for C5 amended: the two-line file `"foo\nbar"` with its true
anchors is reported as a no-op batch error with both edits recorded. -/
theorem c5_witness :
    ∃ noops : List NoopEdit,
      applyHashlineEdits "foo\nbar"
          (List.zipWith HashlineEdit.set_line ["1:d9", "2:2c"] (splitNl "foo\nbar")) =
        .ok ⟨"foo\nbar", none, [], noops⟩ ∧
      noops.length = (["1:d9", "2:2c"] : List String).length ∧
      editFileAnchorBatch "f.txt" "foo\nbar"
          (List.zipWith HashlineEdit.set_line ["1:d9", "2:2c"] (splitNl "foo\nbar")) =
        .error (.thrown (noopDiagnostic "f.txt" noops)) :=
  c5_selfedit_noop_batch "f.txt" "foo\nbar" ["1:d9", "2:2c"]
    (by decide) (by decide) (by decide) (by decide)

end Hashline
